import Mathlib

/-!
Verification of the llmtalks multi-agent orchestration core.

This file gives a shallow embedding, in Lean 4, of the pure decision logic of
the repository's orchestration engine:

* `enhanced_agent.py` — `extract_json_from_response` (structured-output
  extraction from free-form worker text), `validate_solution_fields`
  (schema normalization), and the fallback-record constructors used on
  JSON-parse failure (`solution_phase` except-branch,
  `enhanced_evaluate_solutions` except-branch);
* `redis_orchestrator.py` — `run_parallel_phase` (per-agent result
  collection), `build_consensus` (peer-review score aggregation with its
  degenerate-input fallback), and `select_best_implementation`.

Modelling conventions, used throughout:

* Python's loosely typed JSON values are the inductive `JVal`; Python dicts
  are insertion-ordered association lists (`List (String × JVal)` or, for the
  dict-of-score-lists in `build_consensus`, `List (JVal × List JVal)`), with
  first-occurrence lookup, in-place value replacement on assignment to a
  present key, and append on assignment to an absent key — exactly the
  observable behaviour of a Python `dict`.
* Python numbers (`int`, `float`, and `bool`, which in Python is an `int`)
  are modelled as exact rationals `ℚ`; float rounding is outside the model.
* Code that can raise a runtime exception (`TypeError`/`AttributeError` on a
  non-dict `.get`, summing or comparing non-numbers, iterating a number) is
  modelled in the `Option` monad, `none` standing for a raised exception.
* Raw LLM text is modelled as `List Char`; the Python regex / `str` methods
  used by `extract_json_from_response` are modelled for ASCII whitespace
  (Python's `\s` and `str.strip` additionally accept exotic Unicode spaces,
  which no theorem below exercises).
* The concurrency of `run_parallel_phase` (a thread pool of independent
  per-agent waits) is abstracted by a per-agent outcome function together
  with an arbitrary completion (arrival) order; results are keyed by agent,
  so this captures every interleaving of the pool.
-/

namespace LLMTalks

/-- JSON-like runtime values: the dynamic values flowing between the
orchestrator and the workers (`None`, `bool`, numbers, strings, lists,
dicts). -/
inductive JVal where
  | null : JVal
  | bool (b : Bool) : JVal
  | num (q : ℚ) : JVal
  | str (s : String) : JVal
  | arr (xs : List JVal) : JVal
  | obj (fs : List (String × JVal)) : JVal

mutual

/-- Structural (Python `==`) equality on `JVal`. -/
def JVal.beq : JVal → JVal → Bool
  | .null, .null => true
  | .bool a, .bool b => a == b
  | .num a, .num b => a == b
  | .str a, .str b => a == b
  | .arr xs, .arr ys => JVal.beqList xs ys
  | .obj fs, .obj gs => JVal.beqObj fs gs
  | _, _ => false

/-- Elementwise equality on lists of `JVal`. -/
def JVal.beqList : List JVal → List JVal → Bool
  | [], [] => true
  | x :: xs, y :: ys => JVal.beq x y && JVal.beqList xs ys
  | _, _ => false

/-- Elementwise equality on string-keyed field lists. -/
def JVal.beqObj : List (String × JVal) → List (String × JVal) → Bool
  | [], [] => true
  | (k, v) :: fs, (k', v') :: gs => k == k' && JVal.beq v v' && JVal.beqObj fs gs
  | _, _ => false

end

mutual

theorem JVal.beq_refl : ∀ v : JVal, JVal.beq v v = true
  | .null => rfl
  | .bool b => by simp [JVal.beq]
  | .num q => by simp [JVal.beq]
  | .str s => by simp [JVal.beq]
  | .arr xs => by simp only [JVal.beq]; exact JVal.beqList_refl xs
  | .obj fs => by simp only [JVal.beq]; exact JVal.beqObj_refl fs

theorem JVal.beqList_refl : ∀ xs : List JVal, JVal.beqList xs xs = true
  | [] => rfl
  | x :: xs => by
      simp only [JVal.beqList, Bool.and_eq_true]
      exact ⟨JVal.beq_refl x, JVal.beqList_refl xs⟩

theorem JVal.beqObj_refl : ∀ fs : List (String × JVal), JVal.beqObj fs fs = true
  | [] => rfl
  | (k, v) :: fs => by
      simp only [JVal.beqObj, Bool.and_eq_true]
      exact ⟨⟨by simp, JVal.beq_refl v⟩, JVal.beqObj_refl fs⟩

end

mutual

theorem JVal.eq_of_beq : ∀ {a b : JVal}, JVal.beq a b = true → a = b
  | .null, .null, _ => rfl
  | .bool a, .bool b, h => by simp only [JVal.beq, beq_iff_eq] at h; simp [h]
  | .num a, .num b, h => by simp only [JVal.beq, beq_iff_eq] at h; simp [h]
  | .str a, .str b, h => by simp only [JVal.beq, beq_iff_eq] at h; simp [h]
  | .arr xs, .arr ys, h => by
      simp only [JVal.beq] at h
      exact congrArg JVal.arr (JVal.eqList_of_beq h)
  | .obj fs, .obj gs, h => by
      simp only [JVal.beq] at h
      exact congrArg JVal.obj (JVal.eqObj_of_beq h)

theorem JVal.eqList_of_beq : ∀ {xs ys : List JVal}, JVal.beqList xs ys = true → xs = ys
  | [], [], _ => rfl
  | x :: xs, y :: ys, h => by
      simp only [JVal.beqList, Bool.and_eq_true] at h
      rw [JVal.eq_of_beq h.1, JVal.eqList_of_beq h.2]

theorem JVal.eqObj_of_beq : ∀ {fs gs : List (String × JVal)}, JVal.beqObj fs gs = true → fs = gs
  | [], [], _ => rfl
  | (k, v) :: fs, (k', v') :: gs, h => by
      simp only [JVal.beqObj, Bool.and_eq_true] at h
      obtain ⟨⟨hk, hv⟩, hrest⟩ := h
      rw [JVal.eq_of_beq hv, JVal.eqObj_of_beq hrest, beq_iff_eq.mp hk]

end

instance : DecidableEq JVal := fun a b =>
  if h : JVal.beq a b = true then .isTrue (JVal.eq_of_beq h)
  else .isFalse (fun he => h (he ▸ JVal.beq_refl a))

/-- A Python dict with string keys, as an insertion-ordered association
list: the record type of tasks, results and normalized schemas. -/
abbrev Rec := List (String × JVal)

/-- First-occurrence association lookup: `d[k]` / `k in d` on a Python
dict (whose keys are unique, making first-occurrence lookup exact). -/
def alookup {κ α : Type} [DecidableEq κ] (k : κ) : List (κ × α) → Option α
  | [] => none
  | (k', v) :: rest => if k' = k then some v else alookup k rest

/-- Python dict assignment `d[k] = v`: replace the value at the first
occurrence of `k` keeping its position, or append a new binding. -/
def aset {κ α : Type} [DecidableEq κ] (k : κ) (v : α) : List (κ × α) → List (κ × α)
  | [] => [(k, v)]
  | (k', v') :: rest => if k' = k then (k', v) :: rest else (k', v') :: aset k v rest

/-- Python `d.get(k, default)`. -/
def pyGet (fs : Rec) (k : String) (d : JVal) : JVal := (alookup k fs).getD d

/-- The underlying field list of a dict value, when the value is a dict
(`isinstance(v, dict)`). -/
def JVal.getObj? : JVal → Option Rec
  | .obj fs => some fs
  | _ => none

/-- `isinstance(v, list)`. -/
def JVal.isArr : JVal → Bool
  | .arr _ => true
  | _ => false

/-- Python truthiness of a JSON value (`if v:`). -/
def pyTruthy : JVal → Bool
  | .null => false
  | .bool b => b
  | .num q => decide (q ≠ 0)
  | .str s => decide (s ≠ "")
  | .arr xs => decide (xs ≠ [])
  | .obj fs => decide (fs ≠ [])

/-- The numeric value of a Python number, `bool` included (in Python
`True == 1` and `False == 0`); `none` for non-numbers, whose use in
arithmetic or ordering raises a `TypeError`. -/
def asNum? : JVal → Option ℚ
  | .num q => some q
  | .bool b => some (if b then 1 else 0)
  | _ => none

/-- `isinstance(v, (int, float))` — satisfied by Python `bool` as well,
since `bool` is a subclass of `int`. -/
def isPyNumber : JVal → Bool
  | .num _ => true
  | .bool _ => true
  | _ => false

/-- Numeric value with junk default `0`; only used under an `isPyNumber`
guard. -/
def asNumD (v : JVal) : ℚ := (asNum? v).getD 0

/-! ## SchemaNormalizer: `validate_solution_fields` (enhanced_agent.py 78-123) -/

/-- The `required_fields` table of `validate_solution_fields`, in source
order, with its documented defaults. -/
def required_fields (agentId : String) : Rec :=
  [("solution_overview", .str "Solution generated"),
   ("research_phase", .arr []),
   ("development_phase", .arr []),
   ("files_created", .arr []),
   ("detailed_implementation", .str "Implementation details"),
   ("code_examples", .arr []),
   ("testing_approach", .str "Testing approach"),
   ("advantages", .arr []),
   ("limitations", .arr []),
   ("confidence", .num (1/2)),
   ("agent_id", .str agentId),
   ("phase", .str "solution")]

/-- First loop of `validate_solution_fields`: add each missing required
field with its default (Python dict assignment on an absent key appends). -/
def addDefaults (defaults : Rec) (sol : Rec) : Rec :=
  defaults.foldl (fun s fd => if (alookup fd.1 s).isSome then s else s ++ [fd]) sol

/-- The validity test applied to the `confidence` field:
`isinstance(confidence, (int, float))` and `0 ≤ confidence ≤ 1`. -/
def confidenceOk (v : JVal) : Bool :=
  isPyNumber v && decide (0 ≤ asNumD v) && decide (asNumD v ≤ 1)

/-- Second step of `validate_solution_fields`: reset an invalid
`confidence` to `0.5`. -/
def fixConfidence (sol : Rec) : Rec :=
  match alookup "confidence" sol with
  | none => sol
  | some c => if confidenceOk c then sol else aset "confidence" (.num (1/2)) sol

/-- The `list_fields` table of `validate_solution_fields`. -/
def list_fields : List String :=
  ["research_phase", "development_phase", "files_created",
   "code_examples", "advantages", "limitations"]

/-- Third step of `validate_solution_fields`: replace each present
list-declared field whose value is not a list by the empty list. -/
def fixListFields (sol : Rec) : Rec :=
  list_fields.foldl
    (fun s f =>
      match alookup f s with
      | some v => if v.isArr then s else aset f (.arr []) s
      | none => s)
    sol

/-- `EnhancedCollaborativeAgent.validate_solution_fields` (the schema
normalizer): fill missing required fields with defaults, reset an invalid
confidence to `0.5`, and replace non-list values of list-declared fields
with the empty list. `agentId` is the worker's `self.agent_id`. -/
def validate_solution_fields (agentId : String) (solution : Rec) : Rec :=
  fixListFields (fixConfidence (addDefaults (required_fields agentId) solution))

/-! ## Association-list lemmas -/

theorem alookup_aset_self {κ α : Type} [DecidableEq κ] (k : κ) (v : α) (s : List (κ × α)) :
    alookup k (aset k v s) = some v := by
  induction s with
  | nil => simp [aset, alookup]
  | cons p rest ih =>
      obtain ⟨k', v'⟩ := p
      by_cases h : k' = k
      · simp [aset, alookup, h]
      · simp [aset, alookup, h, ih]

theorem alookup_aset_ne {κ α : Type} [DecidableEq κ] {k k' : κ} (v : α) (s : List (κ × α))
    (h : k ≠ k') : alookup k' (aset k v s) = alookup k' s := by
  induction s with
  | nil => simp [aset, alookup, h]
  | cons p rest ih =>
      obtain ⟨k₀, v₀⟩ := p
      by_cases hk : k₀ = k
      · simp [aset, alookup, hk, h]
      · simp only [aset, if_neg hk, alookup]
        by_cases hk' : k₀ = k'
        · simp [hk']
        · simp [hk', ih]

theorem alookup_append_left {κ α : Type} [DecidableEq κ] {k : κ} {s : List (κ × α)}
    (t : List (κ × α)) (h : (alookup k s).isSome) : alookup k (s ++ t) = alookup k s := by
  induction s with
  | nil => simp [alookup] at h
  | cons p rest ih =>
      obtain ⟨k', v'⟩ := p
      by_cases hk : k' = k
      · simp [alookup, hk]
      · simp only [alookup, if_neg hk, List.cons_append] at h ⊢
        exact ih h

theorem alookup_append_right {κ α : Type} [DecidableEq κ] {k : κ} {s : List (κ × α)}
    (t : List (κ × α)) (h : alookup k s = none) : alookup k (s ++ t) = alookup k t := by
  induction s with
  | nil => simp
  | cons p rest ih =>
      obtain ⟨k', v'⟩ := p
      by_cases hk : k' = k
      · simp [alookup, hk] at h
      · simp only [alookup, if_neg hk] at h
        simp only [List.cons_append, alookup, if_neg hk]
        exact ih h

/-! ## Lemmas about the normalization passes -/

theorem addDefaults_cons (fd : String × JVal) (ds : Rec) (sol : Rec) :
    addDefaults (fd :: ds) sol
      = addDefaults ds (if (alookup fd.1 sol).isSome then sol else sol ++ [fd]) := rfl

theorem addDefaults_pres {k : String} {sol : Rec} (ds : Rec)
    (h : (alookup k sol).isSome) : alookup k (addDefaults ds sol) = alookup k sol := by
  induction ds generalizing sol with
  | nil => rfl
  | cons fd rest ih =>
      rw [addDefaults_cons]
      by_cases hp : (alookup fd.1 sol).isSome
      · rw [if_pos hp]; exact ih h
      · rw [if_neg hp]
        have h1 : alookup k (sol ++ [fd]) = alookup k sol := alookup_append_left _ h
        rw [ih (by rw [h1]; exact h), h1]

theorem addDefaults_absent {k : String} {d : JVal} {sol : Rec} {ds : Rec}
    (hnod : (ds.map Prod.fst).Nodup) (hmem : (k, d) ∈ ds) (h : alookup k sol = none) :
    alookup k (addDefaults ds sol) = some d := by
  induction ds generalizing sol with
  | nil => simp at hmem
  | cons fd rest ih =>
      simp only [List.map_cons, List.nodup_cons] at hnod
      rw [addDefaults_cons]
      by_cases hk : fd.1 = k
      · have hfd : fd = (k, d) := by
          rcases List.mem_cons.mp hmem with h1 | h1
          · exact h1.symm
          · exact absurd (hk ▸ List.mem_map_of_mem Prod.fst h1) hnod.1
        subst hfd
        have hguard : (alookup (k, d).1 sol).isSome = false := by simp [h]
        rw [hguard]
        simp only [Bool.false_eq_true, if_false]
        have hsome : alookup k (sol ++ [(k, d)]) = some d := by
          rw [alookup_append_right _ h]; simp [alookup]
        rw [addDefaults_pres rest (by rw [hsome]; rfl)]
        exact hsome
      · obtain ⟨f1, d1⟩ := fd
        simp only at hk
        have hmem' : (k, d) ∈ rest := by
          rcases List.mem_cons.mp hmem with h1 | h1
          · exact absurd (congrArg Prod.fst h1.symm) hk
          · exact h1
        have habs : alookup k (sol ++ [(f1, d1)]) = none := by
          rw [alookup_append_right _ h]
          simp [alookup, hk]
        by_cases hp : (alookup (f1, d1).1 sol).isSome
        · rw [if_pos hp]
          exact ih hnod.2 hmem' h
        · rw [if_neg hp]
          exact ih hnod.2 hmem' habs

theorem addDefaults_isSome {k : String} {d : JVal} {sol : Rec} {ds : Rec}
    (hnod : (ds.map Prod.fst).Nodup) (hmem : (k, d) ∈ ds) :
    (alookup k (addDefaults ds sol)).isSome := by
  by_cases h : (alookup k sol).isSome
  · rw [addDefaults_pres ds h]; exact h
  · rw [addDefaults_absent hnod hmem (Option.not_isSome_iff_eq_none.mp h)]; rfl

theorem addDefaults_id {sol : Rec} {ds : Rec}
    (h : ∀ fd ∈ ds, (alookup fd.1 sol).isSome) : addDefaults ds sol = sol := by
  induction ds with
  | nil => rfl
  | cons fd rest ih =>
      rw [addDefaults_cons, if_pos (h fd (List.mem_cons_self fd rest))]
      exact ih fun fd' hm => h fd' (List.mem_cons_of_mem fd hm)

theorem fixConfidence_other {k : String} (sol : Rec) (h : k ≠ "confidence") :
    alookup k (fixConfidence sol) = alookup k sol := by
  unfold fixConfidence
  cases alookup "confidence" sol with
  | none => rfl
  | some c =>
      by_cases hc : confidenceOk c
      · simp [hc]
      · simp only [hc, Bool.false_eq_true, if_false]
        exact alookup_aset_ne _ _ (fun hh => h hh.symm)

theorem fixConfidence_valid {sol : Rec} {c : JVal}
    (h : alookup "confidence" sol = some c) (hc : confidenceOk c) :
    fixConfidence sol = sol := by
  unfold fixConfidence; rw [h]; simp [hc]

theorem fixConfidence_invalid {sol : Rec} {c : JVal}
    (h : alookup "confidence" sol = some c) (hc : confidenceOk c = false) :
    alookup "confidence" (fixConfidence sol) = some (.num (1/2)) := by
  unfold fixConfidence; rw [h]; simp [hc, alookup_aset_self]

theorem fixConfidence_isSome {k : String} {sol : Rec} (h : (alookup k sol).isSome) :
    (alookup k (fixConfidence sol)).isSome := by
  by_cases hk : k = "confidence"
  · subst hk
    obtain ⟨c, hc⟩ := Option.isSome_iff_exists.mp h
    by_cases hok : confidenceOk c
    · rw [fixConfidence_valid hc hok]; exact h
    · rw [fixConfidence_invalid hc (by simpa using hok)]; rfl
  · rw [fixConfidence_other sol hk]; exact h

/-- One step of the list-field repair loop. -/
def fixStep (s : Rec) (f : String) : Rec :=
  match alookup f s with
  | some v => if v.isArr then s else aset f (.arr []) s
  | none => s

theorem fixListFields_eq_foldl (sol : Rec) :
    fixListFields sol = list_fields.foldl fixStep sol := rfl

theorem fixStep_other {k f : String} (s : Rec) (h : k ≠ f) :
    alookup k (fixStep s f) = alookup k s := by
  unfold fixStep
  cases alookup f s with
  | none => rfl
  | some v =>
      by_cases hv : v.isArr
      · simp [hv]
      · simp only [hv, Bool.false_eq_true, if_false]
        exact alookup_aset_ne _ _ (fun hh => h hh.symm)

theorem fixStep_arr_pres {f : String} {s : Rec} {k : String} {v : JVal}
    (h : alookup k s = some v) (hv : v.isArr) : alookup k (fixStep s f) = some v := by
  by_cases hk : k = f
  · subst hk
    unfold fixStep
    rw [h]
    simp [hv, h]
  · rw [fixStep_other s hk]; exact h

theorem fixStep_isSome {f k : String} {s : Rec} (h : (alookup k s).isSome) :
    (alookup k (fixStep s f)).isSome := by
  by_cases hk : k = f
  · subst hk
    obtain ⟨v, hv⟩ := Option.isSome_iff_exists.mp h
    unfold fixStep
    rw [hv]
    by_cases ha : v.isArr
    · simp [ha, hv]
    · simp only [ha, Bool.false_eq_true, if_false]
      rw [alookup_aset_self]; rfl
  · rw [fixStep_other s hk]; exact h

theorem foldl_fixStep_other {fs : List String} {s : Rec} {k : String} (h : k ∉ fs) :
    alookup k (fs.foldl fixStep s) = alookup k s := by
  induction fs generalizing s with
  | nil => rfl
  | cons g rest ih =>
      simp only [List.mem_cons, not_or] at h
      simp only [List.foldl_cons]
      rw [ih h.2, fixStep_other s h.1]

theorem foldl_fixStep_arr_pres {fs : List String} {s : Rec} {k : String} {v : JVal}
    (h : alookup k s = some v) (hv : v.isArr) :
    alookup k (fs.foldl fixStep s) = some v := by
  induction fs generalizing s with
  | nil => exact h
  | cons g rest ih => exact ih (fixStep_arr_pres h hv)

theorem foldl_fixStep_isSome {fs : List String} {s : Rec} {k : String}
    (h : (alookup k s).isSome) : (alookup k (fs.foldl fixStep s)).isSome := by
  induction fs generalizing s with
  | nil => exact h
  | cons g rest ih => exact ih (fixStep_isSome h)

theorem foldl_fixStep_sets {fs : List String} {s : Rec} {f : String} {v : JVal}
    (hmem : f ∈ fs) (hnod : fs.Nodup) (h : alookup f s = some v) (hv : v.isArr = false) :
    alookup f (fs.foldl fixStep s) = some (.arr []) := by
  induction fs generalizing s with
  | nil => simp at hmem
  | cons g rest ih =>
      simp only [List.nodup_cons] at hnod
      simp only [List.foldl_cons]
      by_cases hg : g = f
      · subst hg
        have hstep : alookup g (fixStep s g) = some (.arr []) := by
          unfold fixStep
          rw [h]
          simp [hv, alookup_aset_self]
        exact foldl_fixStep_arr_pres hstep rfl
      · have hmem' : f ∈ rest := by
          rcases List.mem_cons.mp hmem with h1 | h1
          · exact absurd h1.symm hg
          · exact h1
        have hstep : alookup f (fixStep s g) = some v := by
          rw [fixStep_other s (fun hh => hg hh.symm)]; exact h
        exact ih hmem' hnod.2 hstep

theorem foldl_fixStep_mem_isArr {fs : List String} {s : Rec} {f : String} {v : JVal}
    (hmem : f ∈ fs) (hnod : fs.Nodup) (h : (alookup f s).isSome)
    (hres : alookup f (fs.foldl fixStep s) = some v) : v.isArr := by
  obtain ⟨w, hw⟩ := Option.isSome_iff_exists.mp h
  by_cases ha : w.isArr
  · rw [foldl_fixStep_arr_pres hw ha] at hres
    cases hres
    exact ha
  · rw [foldl_fixStep_sets hmem hnod hw (by simpa using ha)] at hres
    cases hres
    rfl

theorem foldl_fixStep_id {fs : List String} {s : Rec}
    (h : ∀ f ∈ fs, ∀ v, alookup f s = some v → v.isArr) : fs.foldl fixStep s = s := by
  induction fs with
  | nil => rfl
  | cons g rest ih =>
      have hstep : fixStep s g = s := by
        unfold fixStep
        cases hg : alookup g s with
        | none => rfl
        | some v => simp [h g (List.mem_cons_self g rest) v hg]
      simp only [List.foldl_cons, hstep]
      exact ih fun f hm v hv => h f (List.mem_cons_of_mem g hm) v hv

/-! ## Concrete facts about the field tables -/

theorem required_keys_nodup (agentId : String) :
    ((required_fields agentId).map Prod.fst).Nodup := by
  simp only [required_fields, List.map_cons, List.map_nil]
  decide

theorem list_fields_nodup : list_fields.Nodup := by decide

theorem conf_not_list_field : "confidence" ∉ list_fields := by decide

theorem conf_default_mem (agentId : String) :
    ("confidence", JVal.num (1/2)) ∈ required_fields agentId := by
  simp [required_fields]

theorem conf_mem_eq {agentId : String} {d : JVal}
    (h : ("confidence", d) ∈ required_fields agentId) : d = .num (1/2) := by
  simp only [required_fields, List.mem_cons, List.not_mem_nil, or_false,
    Prod.mk.injEq] at h
  simpa using h

theorem list_default_mem (agentId : String) :
    ∀ f ∈ list_fields, (f, JVal.arr []) ∈ required_fields agentId := by
  intro f hf
  fin_cases hf <;> simp [required_fields]

theorem list_mem_eq {agentId : String} {f : String} {d : JVal}
    (hf : f ∈ list_fields) (h : (f, d) ∈ required_fields agentId) : d = .arr [] := by
  fin_cases hf <;>
    · simp only [required_fields, List.mem_cons, List.not_mem_nil, or_false,
        Prod.mk.injEq] at h
      simpa using h

theorem confOk_half : confidenceOk (.num (1/2)) = true := by
  simp only [confidenceOk, isPyNumber, asNumD, asNum?, Option.getD_some,
    Bool.and_eq_true, decide_eq_true_eq, true_and]
  norm_num

/-! ## Behaviour of the full normalizer -/

theorem vsf_present (agentId : String) (sol : Rec) :
    ∀ fd ∈ required_fields agentId,
      (alookup fd.1 (validate_solution_fields agentId sol)).isSome := by
  intro fd hmem
  obtain ⟨f, d⟩ := fd
  unfold validate_solution_fields
  rw [fixListFields_eq_foldl]
  exact foldl_fixStep_isSome (fixConfidence_isSome
    (addDefaults_isSome (required_keys_nodup agentId) hmem))

theorem vsf_default (agentId : String) (sol : Rec) :
    ∀ fd ∈ required_fields agentId, alookup fd.1 sol = none →
      alookup fd.1 (validate_solution_fields agentId sol) = some fd.2 := by
  intro fd hmem hnone
  obtain ⟨f, d⟩ := fd
  simp only at hnone ⊢
  have ha : alookup f (addDefaults (required_fields agentId) sol) = some d :=
    addDefaults_absent (required_keys_nodup agentId) hmem hnone
  unfold validate_solution_fields
  rw [fixListFields_eq_foldl]
  by_cases hf : f = "confidence"
  · subst hf
    have hd : d = .num (1/2) := conf_mem_eq hmem
    subst hd
    rw [foldl_fixStep_other conf_not_list_field,
      fixConfidence_valid ha confOk_half]
    exact ha
  · by_cases hl : f ∈ list_fields
    · have hd : d = .arr [] := list_mem_eq hl hmem
      subst hd
      have hb : alookup f (fixConfidence (addDefaults (required_fields agentId) sol))
          = some (.arr []) := by rw [fixConfidence_other _ hf]; exact ha
      exact foldl_fixStep_arr_pres hb rfl
    · rw [foldl_fixStep_other hl, fixConfidence_other _ hf]
      exact ha

theorem vsf_list_nonlist (agentId : String) (sol : Rec) :
    ∀ f ∈ list_fields, ∀ v, alookup f sol = some v → v.isArr = false →
      alookup f (validate_solution_fields agentId sol) = some (.arr []) := by
  intro f hl v hv hna
  have hf : f ≠ "confidence" := fun he => conf_not_list_field (he ▸ hl)
  have ha : alookup f (addDefaults (required_fields agentId) sol) = some v := by
    rw [addDefaults_pres _ (by rw [hv]; rfl)]
    exact hv
  have hb : alookup f (fixConfidence (addDefaults (required_fields agentId) sol))
      = some v := by rw [fixConfidence_other _ hf]; exact ha
  unfold validate_solution_fields
  rw [fixListFields_eq_foldl]
  exact foldl_fixStep_sets hl list_fields_nodup hb hna

theorem vsf_conf_invalid (agentId : String) (sol : Rec) :
    ∀ c, alookup "confidence" sol = some c → confidenceOk c = false →
      alookup "confidence" (validate_solution_fields agentId sol) = some (.num (1/2)) := by
  intro c hc hbad
  have ha : alookup "confidence" (addDefaults (required_fields agentId) sol) = some c := by
    rw [addDefaults_pres _ (by rw [hc]; rfl)]
    exact hc
  unfold validate_solution_fields
  rw [fixListFields_eq_foldl, foldl_fixStep_other conf_not_list_field]
  exact fixConfidence_invalid ha hbad

theorem vsf_conf_ok (agentId : String) (sol : Rec) :
    ∃ c, alookup "confidence" (validate_solution_fields agentId sol) = some c
      ∧ confidenceOk c = true := by
  cases hc : alookup "confidence" sol with
  | none =>
      have h0 := vsf_default agentId sol ("confidence", .num (1/2))
        (conf_default_mem agentId) hc
      exact ⟨.num (1/2), h0, confOk_half⟩
  | some c =>
      by_cases hok : confidenceOk c
      · refine ⟨c, ?_, hok⟩
        have ha : alookup "confidence" (addDefaults (required_fields agentId) sol)
            = some c := by
          rw [addDefaults_pres _ (by rw [hc]; rfl)]
          exact hc
        unfold validate_solution_fields
        rw [fixListFields_eq_foldl, foldl_fixStep_other conf_not_list_field,
          fixConfidence_valid ha hok]
        exact ha
      · exact ⟨.num (1/2), vsf_conf_invalid agentId sol c hc (by simpa using hok),
          confOk_half⟩

theorem vsf_list_isArr (agentId : String) (sol : Rec) :
    ∀ f ∈ list_fields, ∀ v,
      alookup f (validate_solution_fields agentId sol) = some v → v.isArr := by
  intro f hl v hres
  cases hc : alookup f sol with
  | none =>
      have := vsf_default agentId sol (f, .arr []) (list_default_mem agentId f hl) hc
      simp only at this
      rw [this] at hres
      cases hres
      rfl
  | some w =>
      have hf : f ≠ "confidence" := fun he => conf_not_list_field (he ▸ hl)
      have ha : alookup f (addDefaults (required_fields agentId) sol) = some w := by
        rw [addDefaults_pres _ (by rw [hc]; rfl)]
        exact hc
      have hb : alookup f (fixConfidence (addDefaults (required_fields agentId) sol))
          = some w := by rw [fixConfidence_other _ hf]; exact ha
      have hres' : alookup f
          (list_fields.foldl fixStep
            (fixConfidence (addDefaults (required_fields agentId) sol))) = some v := by
        rw [← fixListFields_eq_foldl]
        exact hres
      exact foldl_fixStep_mem_isArr hl list_fields_nodup (by rw [hb]; rfl) hres'

/-- Claim C7: `validate_solution_fields` is total (it is a plain function that
never raises) and completing: every declared field of the `required_fields`
table is present in the output; a missing field receives its documented
default (the empty list for the sequence fields); a present field declared as
a list whose runtime value is not a list is replaced by the empty-list
default rather than coerced; and a `confidence` value that is non-numeric or
outside `[0, 1]` is reset to `0.5`. -/
theorem C7_validate_solution_fields_complete (agentId : String) (sol : Rec) :
    (∀ fd ∈ required_fields agentId,
       (alookup fd.1 (validate_solution_fields agentId sol)).isSome = true)
    ∧ (∀ fd ∈ required_fields agentId, alookup fd.1 sol = none →
       alookup fd.1 (validate_solution_fields agentId sol) = some fd.2)
    ∧ (∀ f ∈ list_fields, ∀ v, alookup f sol = some v → v.isArr = false →
       alookup f (validate_solution_fields agentId sol) = some (.arr []))
    ∧ (∀ c, alookup "confidence" sol = some c → confidenceOk c = false →
       alookup "confidence" (validate_solution_fields agentId sol)
         = some (.num (1/2))) :=
  ⟨vsf_present agentId sol, vsf_default agentId sol, vsf_list_nonlist agentId sol,
   vsf_conf_invalid agentId sol⟩

/-- Claim C8: the schema normalizer is idempotent — normalizing an
already-normalized record yields the same record. -/
theorem C8_validate_solution_fields_idempotent (agentId : String) (sol : Rec) :
    validate_solution_fields agentId (validate_solution_fields agentId sol)
      = validate_solution_fields agentId sol := by
  have h1 : addDefaults (required_fields agentId) (validate_solution_fields agentId sol)
      = validate_solution_fields agentId sol :=
    addDefaults_id (fun fd hm => vsf_present agentId sol fd hm)
  obtain ⟨c, hcl, hcok⟩ := vsf_conf_ok agentId sol
  have h2 : fixConfidence (validate_solution_fields agentId sol)
      = validate_solution_fields agentId sol := fixConfidence_valid hcl hcok
  have h3 : fixListFields (validate_solution_fields agentId sol)
      = validate_solution_fields agentId sol := by
    rw [fixListFields_eq_foldl]
    exact foldl_fixStep_id (vsf_list_isArr agentId sol)
  calc validate_solution_fields agentId (validate_solution_fields agentId sol)
      = fixListFields (fixConfidence (addDefaults (required_fields agentId)
          (validate_solution_fields agentId sol))) := rfl
    _ = validate_solution_fields agentId sol := by rw [h1, h2, h3]

/-! ## PhaseRunner: `run_parallel_phase` (redis_orchestrator.py 110-175)

The thread pool runs one `wait_for_result` per agent; each wait is
independent, so a phase execution is determined by (i) each agent's outcome —
a result posted in time, a timeout, or an exception raised while waiting —
and (ii) the order in which the futures complete (`as_completed`), which is
the insertion order of the `results` dict. We model (i) as a function from
agent id to `Outcome` and (ii) as an explicit arrival list, an arbitrary
permutation of the roster. -/

/-- The outcome of one agent's wait: the worker posted `r` before the
deadline; the poll loop timed out; or the wait raised an exception whose
string rendering is `msg` (caught around `future.result()`). -/
inductive Outcome where
  | posted (r : JVal) : Outcome
  | timedOut : Outcome
  | exnStr (msg : String) : Outcome
deriving DecidableEq

/-- The roster, `self.agents` of `RedisMultiAgentOrchestrator`. -/
def agents : List String := ["agent_a", "agent_b", "agent_c", "agent_d"]

/-- The entry `run_parallel_phase` records for one agent: the posted result
verbatim; on timeout the error dict built by `wait_for_result`; on an
exception the error dict built in the `except` clause. -/
def wait_entry (taskId : String) (o : Outcome) : JVal :=
  match o with
  | .posted r => r
  | .timedOut => .obj [("error", .str ("Timeout waiting for " ++ taskId))]
  | .exnStr m => .obj [("error", .str m)]

/-- `run_parallel_phase`: the `results` dict after the `as_completed` loop,
keyed by agent in arrival order. `arrival` is the completion order of the
futures (a permutation of the roster), `taskIds` the task id sent to each
agent. -/
def run_parallel_phase (arrival : List String) (taskIds : String → String)
    (outcome : String → Outcome) : List (String × JVal) :=
  arrival.map (fun a => (a, wait_entry (taskIds a) (outcome a)))

theorem alookup_map_self {α : Type} {l : List String} {a : String}
    (g : String → α) (h : a ∈ l) :
    alookup a (l.map (fun x => (x, g x))) = some (g a) := by
  induction l with
  | nil => simp at h
  | cons b rest ih =>
      by_cases hb : b = a
      · subst hb
        simp [alookup]
      · rcases List.mem_cons.mp h with h1 | h1
        · exact absurd h1.symm hb
        · simp only [List.map_cons, alookup, if_neg hb]
          exact ih h1

/-- Claim C4: `run_parallel_phase` returns exactly one entry per roster
agent whatever the per-agent outcomes and the completion order; a timed-out
or failed agent contributes an error-carrying entry for that agent only; and
each agent's entry depends only on that agent's own outcome, so no agent's
failure disturbs the collection of the others' results. -/
theorem C4_run_parallel_phase_roster_complete (roster arrival : List String)
    (taskIds : String → String) (outcome : String → Outcome)
    (hperm : arrival.Perm roster) :
    (run_parallel_phase arrival taskIds outcome).length = roster.length
    ∧ (∀ a ∈ roster, alookup a (run_parallel_phase arrival taskIds outcome)
        = some (wait_entry (taskIds a) (outcome a)))
    ∧ (∀ a ∈ roster, ∀ m, outcome a = .timedOut ∨ outcome a = .exnStr m →
        ∃ fs, alookup a (run_parallel_phase arrival taskIds outcome) = some (.obj fs)
          ∧ (alookup "error" fs).isSome = true)
    ∧ (∀ outcome' : String → Outcome, ∀ a ∈ roster, outcome a = outcome' a →
        alookup a (run_parallel_phase arrival taskIds outcome)
          = alookup a (run_parallel_phase arrival taskIds outcome')) := by
  have hmem : ∀ a ∈ roster, a ∈ arrival := fun a ha => hperm.mem_iff.mpr ha
  have hlook : ∀ a ∈ roster, alookup a (run_parallel_phase arrival taskIds outcome)
      = some (wait_entry (taskIds a) (outcome a)) :=
    fun a ha => alookup_map_self _ (hmem a ha)
  refine ⟨?_, hlook, ?_, ?_⟩
  · simp [run_parallel_phase, hperm.length_eq]
  · intro a ha m hout
    rcases hout with hout | hout <;>
      · rw [hlook a ha, hout]
        exact ⟨_, rfl, rfl⟩
  · intro outcome' a ha heq
    have h2 : alookup a (run_parallel_phase arrival taskIds outcome')
        = some (wait_entry (taskIds a) (outcome' a)) :=
      alookup_map_self _ (hmem a ha)
    rw [hlook a ha, h2, heq]

/-- A demonstration completion order for the roster. -/
def arrivalDemo : List String := ["agent_c", "agent_a", "agent_d", "agent_b"]

/-- Demonstration task ids. -/
def taskIdsDemo (a : String) : String := String.append a "_task"

/-- Demonstration outcomes: `agent_b` times out, `agent_d` raises, the rest
post results. -/
def outcomeDemo (a : String) : Outcome :=
  if a = "agent_b" then .timedOut
  else if a = "agent_d" then .exnStr "connection reset"
  else .posted (.obj [("solution_overview", .str "ok")])

theorem C4_run_parallel_phase_witness :
    (run_parallel_phase arrivalDemo taskIdsDemo outcomeDemo).length = agents.length
    ∧ alookup "agent_b" (run_parallel_phase arrivalDemo taskIdsDemo outcomeDemo)
        = some (wait_entry (taskIdsDemo "agent_b") (outcomeDemo "agent_b"))
    ∧ (∃ fs, alookup "agent_b" (run_parallel_phase arrivalDemo taskIdsDemo outcomeDemo)
        = some (.obj fs) ∧ (alookup "error" fs).isSome = true) := by
  have h := C4_run_parallel_phase_roster_complete agents arrivalDemo taskIdsDemo
    outcomeDemo (by decide)
  exact ⟨h.1, h.2.1 "agent_b" (by decide),
    h.2.2.1 "agent_b" (by decide) "" (Or.inl (by decide))⟩

/-! ## Final selection: `select_best_implementation` (redis_orchestrator.py 424-448)

The loop keeps a running best (`best_impl`, `best_score` starting at `0`) over
the implementation-phase result mapping in its insertion order — which is the
order results arrived, see `run_parallel_phase` — updating only on a strictly
greater confidence. Entries that are not dicts or that carry an `"error"` key
are skipped; comparing a non-numeric confidence raises a `TypeError`
(modelled as `none`). -/

/-- One eligible entry of the implementation mapping: agent id, the whole
record, the raw confidence value and its numeric reading. -/
structure VConf where
  agent : String
  impl : JVal
  conf : JVal
  q : ℚ

/-- Well-formedness of an implementation mapping: every eligible (dict,
error-free) entry has a numeric confidence, so the strict comparison in the
loop cannot raise. -/
def implsWF (implementations : List (String × JVal)) : Bool :=
  implementations.all (fun p =>
    match p.2.getObj? with
    | some fs => (alookup "error" fs).isSome
        || (asNum? (pyGet fs "confidence" (.num 0))).isSome
    | none => true)

/-- The eligible entries, in insertion (arrival) order, with their numeric
confidences. -/
def validConfs (implementations : List (String × JVal)) : List VConf :=
  implementations.filterMap (fun p =>
    match p.2.getObj? with
    | some fs =>
        if (alookup "error" fs).isSome then none
        else
          match asNum? (pyGet fs "confidence" (.num 0)) with
          | some q => some ⟨p.1, p.2, pyGet fs "confidence" (.num 0), q⟩
          | none => none
    | none => none)

/-- The loop body on an eligible entry: replace the running best only on a
strictly greater confidence (`if confidence > best_score`). -/
def selStep (st : Option VConf × ℚ) (p : VConf) : Option VConf × ℚ :=
  if st.2 < p.q then (some p, p.q) else st

/-- The loop body on a raw mapping entry: skip non-dicts and error-carrying
dicts, fail on a non-numeric confidence. -/
def selMStep (st : Option VConf × ℚ) (pr : String × JVal) : Option (Option VConf × ℚ) :=
  match pr.2.getObj? with
  | some fs =>
      if (alookup "error" fs).isSome then some st
      else
        match asNum? (pyGet fs "confidence" (.num 0)) with
        | some q => some (selStep st ⟨pr.1, pr.2, pyGet fs "confidence" (.num 0), q⟩)
        | none => none
  | none => some st

/-- `select_best_implementation`: the final `best_impl or
 \x7b"error": "No valid implementations"\x7d` value. -/
def select_best_implementation (implementations : List (String × JVal)) : Option Rec := do
  let st ← implementations.foldlM selMStep (none, 0)
  match st.1 with
  | some w => pure [("agent_id", .str w.agent), ("implementation", w.impl),
      ("confidence", w.conf)]
  | none => pure [("error", .str "No valid implementations")]

/-- Written from the spec: the earliest-inserted entry whose confidence no
other entry exceeds. -/
def specFirstMax (vcs : List VConf) : Option VConf :=
  vcs.find? (fun p => vcs.all (fun r => decide (r.q ≤ p.q)))

theorem selFold_spec (vcs : List VConf) :
    (vcs.foldl selStep (none, 0) = (none, 0) ∧ ∀ p ∈ vcs, p.q ≤ 0)
    ∨ (∃ w l₁ l₂, vcs = l₁ ++ w :: l₂
        ∧ vcs.foldl selStep (none, 0) = (some w, w.q)
        ∧ 0 < w.q ∧ (∀ p ∈ l₁, p.q < w.q) ∧ (∀ p ∈ vcs, p.q ≤ w.q)) := by
  induction vcs using List.reverseRecOn with
  | nil => exact Or.inl ⟨rfl, by simp⟩
  | append_singleton l p ih =>
      rw [List.foldl_append]
      rcases ih with ⟨heq, hle⟩ | ⟨w, l₁, l₂, hsplit, heq, hpos, hlt, hmax⟩
      · rw [heq]
        by_cases hp : 0 < p.q
        · refine Or.inr ⟨p, l, [], rfl, ?_, hp,
            fun r hr => lt_of_le_of_lt (hle r hr) hp, ?_⟩
          · simp [selStep, hp]
          · intro r hr
            rcases List.mem_append.mp hr with h1 | h1
            · exact le_of_lt (lt_of_le_of_lt (hle r h1) hp)
            · rw [List.mem_singleton.mp h1]
        · refine Or.inl ⟨by simp [selStep, hp], ?_⟩
          intro r hr
          rcases List.mem_append.mp hr with h1 | h1
          · exact hle r h1
          · rw [List.mem_singleton.mp h1]
            exact not_lt.mp hp
      · rw [heq]
        by_cases hp : w.q < p.q
        · refine Or.inr ⟨p, l, [], rfl, by simp [selStep, hp],
            lt_trans hpos hp, fun r hr => lt_of_le_of_lt (hmax r hr) hp, ?_⟩
          intro r hr
          rcases List.mem_append.mp hr with h1 | h1
          · exact le_of_lt (lt_of_le_of_lt (hmax r h1) hp)
          · rw [List.mem_singleton.mp h1]
        · refine Or.inr ⟨w, l₁, l₂ ++ [p], by rw [hsplit]; simp,
            by simp [selStep, hp], hpos, hlt, ?_⟩
          intro r hr
          rcases List.mem_append.mp hr with h1 | h1
          · exact hmax r h1
          · rw [List.mem_singleton.mp h1]
            exact not_lt.mp hp

theorem foldlM_selMStep (impls : List (String × JVal)) (hwf : implsWF impls = true) :
    ∀ st, impls.foldlM selMStep st = some ((validConfs impls).foldl selStep st) := by
  induction impls with
  | nil => intro st; rfl
  | cons pr rest ih =>
      simp only [implsWF, List.all_cons, Bool.and_eq_true] at hwf
      intro st
      rw [List.foldlM_cons]
      cases hobj : pr.2.getObj? with
      | none =>
          have hv : validConfs (pr :: rest) = validConfs rest := by
            simp [validConfs, List.filterMap_cons, hobj]
          have hstep : selMStep st pr = some st := by simp [selMStep, hobj]
          rw [hstep, hv]
          simpa using ih hwf.2 st
      | some fs =>
          by_cases herr : (alookup "error" fs).isSome
          · have hv : validConfs (pr :: rest) = validConfs rest := by
              simp [validConfs, List.filterMap_cons, hobj, herr]
            have hstep : selMStep st pr = some st := by simp [selMStep, hobj, herr]
            rw [hstep, hv]
            simpa using ih hwf.2 st
          · have hn : (asNum? (pyGet fs "confidence" (.num 0))).isSome := by
              have := hwf.1
              rw [hobj] at this
              rcases Bool.or_eq_true_iff.mp this with h1 | h1
              · exact absurd h1 herr
              · exact h1
            obtain ⟨q, hq⟩ := Option.isSome_iff_exists.mp hn
            have hv : validConfs (pr :: rest)
                = ⟨pr.1, pr.2, pyGet fs "confidence" (.num 0), q⟩ :: validConfs rest := by
              simp [validConfs, List.filterMap_cons, hobj, herr, hq]
            have hstep : selMStep st pr
                = some (selStep st ⟨pr.1, pr.2, pyGet fs "confidence" (.num 0), q⟩) := by
              simp [selMStep, hobj, herr, hq]
            rw [hstep, hv, List.foldl_cons]
            simpa using ih hwf.2 _

theorem select_best_eq (impls : List (String × JVal)) (hwf : implsWF impls = true) :
    select_best_implementation impls
      = match ((validConfs impls).foldl selStep (none, 0)).1 with
        | some w => some [("agent_id", .str w.agent), ("implementation", w.impl),
            ("confidence", w.conf)]
        | none => some [("error", .str "No valid implementations")] := by
  unfold select_best_implementation
  rw [foldlM_selMStep impls hwf (none, 0)]
  rfl

theorem find?_split {α : Type} (pred : α → Bool) (l₁ l₂ : List α) (w : α)
    (h1 : ∀ x ∈ l₁, pred x = false) (hw : pred w = true) :
    (l₁ ++ w :: l₂).find? pred = some w := by
  induction l₁ with
  | nil => simp [List.find?_cons, hw]
  | cons x rest ih =>
      simp only [List.cons_append, List.find?_cons,
        h1 x (List.mem_cons_self x rest)]
      exact ih fun y hy => h1 y (List.mem_cons_of_mem x hy)

/-- Claim C5: among implementation-phase results that are dicts with no
`error` key, the selection returns the winner record
`agent_id / implementation / confidence` of an entry with maximal
confidence; when every result carries an error or a zero confidence, it
returns the explicit no-valid-result marker instead. -/
theorem C5_select_best_implementation_envelope (impls : List (String × JVal))
    (hwf : implsWF impls = true) :
    ((∀ p ∈ validConfs impls, p.q = 0) →
      select_best_implementation impls
        = some [("error", .str "No valid implementations")])
    ∧ ((∃ p ∈ validConfs impls, 0 < p.q) →
      ∃ w ∈ validConfs impls,
        select_best_implementation impls
          = some [("agent_id", .str w.agent), ("implementation", w.impl),
              ("confidence", w.conf)]
        ∧ ∀ r ∈ validConfs impls, r.q ≤ w.q) := by
  rcases selFold_spec (validConfs impls) with ⟨heq, hle⟩ |
    ⟨w, l₁, l₂, hsplit, heq, hpos, hlt, hmax⟩
  · constructor
    · intro _
      rw [select_best_eq impls hwf, heq]
    · intro ⟨p, hp, hq⟩
      exact absurd hq (not_lt.mpr (hle p hp))
  · have hwmem : w ∈ validConfs impls := by
      rw [hsplit]
      exact List.mem_append_right _ (List.mem_cons_self _ _)
    constructor
    · intro hzero
      exact absurd (hzero w hwmem) (ne_of_gt hpos)
    · intro _
      refine ⟨w, hwmem, ?_, hmax⟩
      rw [select_best_eq impls hwf, heq]

/-- Claim C6 (amended): with at least one eligible entry of positive
confidence, the selected agent is the *earliest-inserted* entry attaining
the maximal confidence — the insertion order of the implementation-phase
result mapping is its arrival order, so ties go to the earliest-arriving
agent, not to the roster order. -/
theorem C6_select_best_first_of_max (impls : List (String × JVal))
    (hwf : implsWF impls = true) (hex : ∃ p ∈ validConfs impls, 0 < p.q) :
    ∃ w, specFirstMax (validConfs impls) = some w
      ∧ select_best_implementation impls
          = some [("agent_id", .str w.agent), ("implementation", w.impl),
              ("confidence", w.conf)] := by
  rcases selFold_spec (validConfs impls) with ⟨heq, hle⟩ |
    ⟨w, l₁, l₂, hsplit, heq, hpos, hlt, hmax⟩
  · obtain ⟨p, hp, hq⟩ := hex
    exact absurd hq (not_lt.mpr (hle p hp))
  · refine ⟨w, ?_, ?_⟩
    · unfold specFirstMax
      rw [hsplit]
      refine find?_split _ l₁ l₂ w ?_ ?_
      · intro x hx
        have hwx : ¬ (w.q ≤ x.q) := not_le.mpr (hlt x hx)
        apply List.all_eq_false.mpr
        exact ⟨w, List.mem_append_right _ (List.mem_cons_self _ _),
          by simpa using hwx⟩
      · apply List.all_eq_true.mpr
        intro r hr
        have : r ∈ validConfs impls := by rw [hsplit]; exact hr
        simpa using hmax r this
    · rw [select_best_eq impls hwf, heq]

/-- Two implementation results tying at the highest confidence, the later
roster agent (`agent_b`) having arrived first. -/
def tieImpls : List (String × JVal) :=
  [("agent_b", .obj [("confidence", .num 1)]),
   ("agent_a", .obj [("confidence", .num 1)])]

/-- Counterexample to claim C6 as stated: with `agent_b`'s and `agent_a`'s
implementation results tying at confidence 1 and `agent_b` arriving first,
the code selects `agent_b`, although `agent_a` is declared earlier in the
roster — the tie-break follows arrival order, not roster order. -/
theorem C6_counterexample_roster_tiebreak :
    select_best_implementation tieImpls
      = some [("agent_id", .str "agent_b"),
          ("implementation", .obj [("confidence", .num 1)]),
          ("confidence", .num 1)]
    ∧ List.indexOf "agent_a" agents < List.indexOf "agent_b" agents := by
  constructor
  · rw [select_best_eq tieImpls rfl]
    have hv : validConfs tieImpls
        = [⟨"agent_b", .obj [("confidence", .num 1)], .num 1, 1⟩,
           ⟨"agent_a", .obj [("confidence", .num 1)], .num 1, 1⟩] := rfl
    rw [hv]
    have s1 : selStep (none, 0) ⟨"agent_b", .obj [("confidence", .num 1)], .num 1, 1⟩
        = (some ⟨"agent_b", .obj [("confidence", .num 1)], .num 1, 1⟩, 1) := by
      simp [selStep]
    have s2 : selStep
        (some ⟨"agent_b", .obj [("confidence", .num 1)], .num 1, 1⟩, 1)
        ⟨"agent_a", .obj [("confidence", .num 1)], .num 1, 1⟩
        = (some ⟨"agent_b", .obj [("confidence", .num 1)], .num 1, 1⟩, 1) := by
      simp [selStep]
    rw [List.foldl_cons, s1, List.foldl_cons, s2]
    rfl
  · decide

theorem C6_select_best_first_of_max_witness :
    ∃ w, specFirstMax (validConfs tieImpls) = some w
      ∧ select_best_implementation tieImpls
          = some [("agent_id", .str w.agent), ("implementation", w.impl),
              ("confidence", w.conf)] := by
  apply C6_select_best_first_of_max tieImpls rfl
  refine ⟨⟨"agent_b", .obj [("confidence", .num 1)], .num 1, 1⟩, ?_, by norm_num⟩
  have hv : validConfs tieImpls
      = [⟨"agent_b", .obj [("confidence", .num 1)], .num 1, 1⟩,
         ⟨"agent_a", .obj [("confidence", .num 1)], .num 1, 1⟩] := rfl
  rw [hv]
  exact List.mem_cons_self _ _

/-- Demonstration implementation mapping for C5: one error entry, one
non-dict entry, two eligible entries. -/
def demoImpls : List (String × JVal) :=
  [("agent_a", .obj [("error", .str "JSON parse error"), ("confidence", .str "high")]),
   ("agent_b", .obj [("confidence", .num 1)]),
   ("agent_c", .str "not a dict"),
   ("agent_d", .obj [("confidence", .num 0)])]

theorem C5_select_best_implementation_witness :
    ∃ w ∈ validConfs demoImpls,
      select_best_implementation demoImpls
        = some [("agent_id", .str w.agent), ("implementation", w.impl),
            ("confidence", w.conf)]
      ∧ ∀ r ∈ validConfs demoImpls, r.q ≤ w.q := by
  apply (C5_select_best_implementation_envelope demoImpls rfl).2
  refine ⟨⟨"agent_b", .obj [("confidence", .num 1)], .num 1, 1⟩, ?_, by norm_num⟩
  have hv : validConfs demoImpls
      = [⟨"agent_b", .obj [("confidence", .num 1)], .num 1, 1⟩,
         ⟨"agent_d", .obj [("confidence", .num 0)], .num 0, 0⟩] := rfl
  rw [hv]
  exact List.mem_cons_self _ _

/-! ## ConsensusBuilder: `build_consensus` (redis_orchestrator.py 177-268)

The evaluator loop collects, for every error-free evaluator result and every
entry of its `detailed_evaluations`, the entry's `overall_score` into a
dict-of-lists keyed by the evaluated agent (any truthy value can key it), and
the evaluator's own top-level `confidence` into a list. Consensus scores are
the per-agent arithmetic means. If no scores were collected or every
consensus score is exactly zero, the ranking is discarded and the best agent
is the argmax (first maximal, by Python `max`) of the solution-phase
self-reported confidences, defaulting to `"agent_a"`; otherwise it is the
argmax of the consensus scores. Failure cases of the Python code — `.get` on
a non-dict, iterating a number, summing or comparing non-numbers, slicing a
non-sliceable `comments` value in the debug print — are `none`. (Python
compares lists lexicographically; a list-valued confidence in `max` is
modelled as a failure, which no theorem below exercises.) -/

/-- State threaded through the evaluator loop of `build_consensus`:
`all_scores` (an insertion-ordered dict of score lists keyed by the evaluated
agent value), `confidence_scores` and `evaluation_details`. -/
structure CState where
  all_scores : List (JVal × List JVal)
  confidence_scores : List JVal
  evaluation_details : List JVal

/-- `hash(v)` succeeds: Python lists and dicts are unhashable, so using one
as a dict key raises `TypeError: unhashable type`. -/
def pyHashable : JVal → Bool
  | .arr _ => false
  | .obj _ => false
  | _ => true

/-- Python `==` as dict-key equality on hashable values: numbers — `bool`
included — compare numerically (`True == 1`, `1 == 1.0`), everything else
(`None`, strings) structurally; a number never equals a non-number. -/
def pyKeyEq (a b : JVal) : Bool :=
  match asNum? a, asNum? b with
  | some x, some y => decide (x = y)
  | some _, none => false
  | none, some _ => false
  | none, none => decide (a = b)

/-- Dict lookup under Python key equality: `d[k]` on a `JVal`-keyed dict
(first entry whose key compares `==` to `k`; a real dict holds at most
one). -/
def plookup {α : Type} (k : JVal) : List (JVal × α) → Option α
  | [] => none
  | (k', v) :: rest => if pyKeyEq k' k then some v else plookup k rest

theorem pyKeyEq_refl (a : JVal) : pyKeyEq a a = true := by
  unfold pyKeyEq
  cases h : asNum? a with
  | some x => simp
  | none => simp

theorem pyKeyEq_comm (a b : JVal) : pyKeyEq a b = pyKeyEq b a := by
  unfold pyKeyEq
  cases ha : asNum? a <;> cases hb : asNum? b <;> simp [eq_comm]

theorem pyKeyEq_trans {a b c : JVal} (h1 : pyKeyEq a b = true)
    (h2 : pyKeyEq b c = true) : pyKeyEq a c = true := by
  unfold pyKeyEq at h1 h2 ⊢
  cases ha : asNum? a <;> cases hb : asNum? b <;> cases hc : asNum? c <;>
    rw [ha, hb] at h1 <;> rw [hb, hc] at h2 <;> simp_all

theorem pyKeyEq_of_eq {a b : JVal} (h : a = b) : pyKeyEq a b = true :=
  h ▸ pyKeyEq_refl a

theorem pyKeyEq_symm {a b : JVal} (h : pyKeyEq a b = true) :
    pyKeyEq b a = true := by
  rw [pyKeyEq_comm]; exact h

theorem pyKeyEq_right_congr {a b : JVal} (hab : pyKeyEq a b = true) (x : JVal) :
    pyKeyEq x a = pyKeyEq x b := by
  by_cases h : pyKeyEq x a = true
  · rw [h, pyKeyEq_trans h hab]
  · by_cases h2 : pyKeyEq x b = true
    · exact absurd (pyKeyEq_trans h2 (pyKeyEq_symm hab)) h
    · rw [Bool.not_eq_true] at h h2
      rw [h, h2]

theorem pyKeyEq_str_iff {s : String} {k : JVal} :
    pyKeyEq (.str s) k = true ↔ k = .str s := by
  unfold pyKeyEq
  cases hk : asNum? k with
  | some x =>
      simp only [asNum?]
      constructor
      · intro h; cases h
      · intro h
        subst h
        simp [asNum?] at hk
  | none =>
      simp only [asNum?, decide_eq_true_eq]
      exact eq_comm

/-- `all_scores[eval_agent].append(score)` after
`if eval_agent not in all_scores: all_scores[eval_agent] = []`: membership
and update use Python key equality, the originally inserted key object is
kept, and a fresh key goes to the end (dict insertion order). -/
def appendScore (m : List (JVal × List JVal)) (k : JVal) (s : JVal) :
    List (JVal × List JVal) :=
  match m with
  | [] => [(k, [s])]
  | (k', vs) :: rest =>
      if pyKeyEq k' k then (k', vs ++ [s]) :: rest
      else (k', vs) :: appendScore rest k s

/-- Python iteration `for x in v`: lists yield elements, dicts their keys,
strings their characters as one-character strings; numbers, booleans and
`None` raise `TypeError`. -/
def pyIter : JVal → Option (List JVal)
  | .arr xs => some xs
  | .obj fs => some (fs.map (fun p => .str p.1))
  | .str s => some (s.toList.map (fun c => .str (String.singleton c)))
  | _ => none

/-- Python slicing `v[:100]` works on strings and lists only; the consensus
debug print slices `eval_item.get('comments', 'None')`. -/
def sliceable : JVal → Bool
  | .str _ => true
  | .arr _ => true
  | _ => false

/-- One record appended to `evaluation_details` per sub-evaluation. -/
def detailItem (evaluator : String) (eval_agent score item : JVal) : JVal :=
  .obj [("evaluator", .str evaluator), ("evaluated", eval_agent),
        ("score", score), ("details", item)]

/-- The body of the inner `for eval_item in evaluation["detailed_evaluations"]`
loop: read `agent_id` (default `None`) and `overall_score` (default `0`),
print the detail lines (whose `comments` slice can raise), and for a truthy
agent key run `eval_agent not in all_scores` — which raises `TypeError` on
an unhashable (list/dict) key — then collect the score under that key;
finally append the `evaluation_details` record. -/
def procItem (evaluator : String) (st : CState) (item : JVal) : Option CState :=
  match item.getObj? with
  | none => none
  | some g =>
      let eval_agent := pyGet g "agent_id" .null
      let score := pyGet g "overall_score" (.num 0)
      if sliceable (pyGet g "comments" (.str "None")) then
        if pyTruthy eval_agent && !(pyHashable eval_agent) then none
        else
          let st1 := if pyTruthy eval_agent then
              { st with all_scores := appendScore st.all_scores eval_agent score }
            else st
          some { st1 with evaluation_details :=
              st1.evaluation_details ++ [detailItem evaluator eval_agent score item] }
      else none

/-- The body of the outer evaluator loop: skip error-carrying dict results
(the `else` print calls `.get` and so raises on a non-dict), walk
`detailed_evaluations` when present, then append the evaluator's own
`confidence` when present. -/
def procEvaluator (st : CState) (pr : String × JVal) : Option CState :=
  match pr.2.getObj? with
  | some fs =>
      if (alookup "error" fs).isSome then some st
      else do
        let st1 ←
          match alookup "detailed_evaluations" fs with
          | none => some st
          | some v => do
              let items ← pyIter v
              items.foldlM (procItem pr.1) st
        match alookup "confidence" fs with
        | some c =>
            some { st1 with confidence_scores := st1.confidence_scores ++ [c] }
        | none => some st1
  | none => none

/-- Python `sum(xs)` (starting at integer 0): fails on a non-number. -/
def pySum (xs : List JVal) : Option ℚ :=
  xs.foldlM (fun acc v => (asNum? v).map (fun q => acc + q)) 0

/-- The consensus-score loop: for every agent with a nonempty score list,
`sum(scores) / len(scores)`. -/
def consensusScores (m : List (JVal × List JVal)) : Option (List (JVal × ℚ)) :=
  m.foldlM (fun acc p =>
    if p.2.isEmpty then some acc
    else (pySum p.2).map (fun s => acc ++ [(p.1, s / (p.2.length : ℚ))])) []

/-- One step of the fallback's `source_confidences` loop: a solution-phase
result that is a dict carrying a `confidence` key contributes it, keyed by
agent (dict assignment). -/
def srcStep (acc : List (String × JVal)) (p : String × JVal) :
    List (String × JVal) :=
  match p.2.getObj? with
  | some fs =>
      match alookup "confidence" fs with
      | some c => aset p.1 c acc
      | none => acc
  | none => acc

/-- The fallback's `source_confidences` dict. -/
def sourceConfs (sr : List (String × JVal)) : List (String × JVal) :=
  sr.foldl srcStep []

/-- Python `a > b` on JSON values: numbers (booleans included) compare
numerically, strings lexicographically; other mixes raise `TypeError`. -/
def pyGtJ (a b : JVal) : Option Bool :=
  match asNum? a, asNum? b with
  | some x, some y => some (decide (y < x))
  | _, _ =>
      match a, b with
      | .str x, .str y => some (decide (y < x))
      | _, _ => none

/-- Python `max(d.keys(), key=lambda x: d[x])` over an insertion-ordered
dict: the first key of maximal value (replacement only on strictly
greater). -/
def pyMaxByVal (l : List (String × JVal)) : Option String :=
  match l with
  | [] => none
  | p :: rest =>
      (rest.foldlM (fun best r =>
        (pyGtJ r.2 best.2).map (fun gt => if gt then r else best)) p).map Prod.fst

/-- `max(consensus_scores.keys(), key=...)`: first key of maximal (rational)
consensus score. -/
def maxByQ (l : List (JVal × ℚ)) : Option JVal :=
  match l with
  | [] => none
  | p :: rest =>
      some (rest.foldl (fun best r => if best.2 < r.2 then r else best) p).1

/-- Substring containment on character lists (Python `sub in s` for
strings). -/
def containsSub (sub s : List Char) : Bool :=
  (List.range (s.length + 1)).any (fun i => sub.isPrefixOf (s.drop i))

/-- Python `"error" not in r` for an arbitrary result value: key absence for
dicts, element membership for lists, substring for strings; `TypeError` for
numbers, booleans and `None`. -/
def pyNotInError : JVal → Option Bool
  | .obj fs => some (alookup "error" fs).isNone
  | .arr xs => some (!(xs.contains (.str "error")))
  | .str s => some (!(containsSub "error".toList s.toList))
  | _ => none

/-- `total_evaluators`: the count of evaluation results without an `error`
entry. -/
def countNonError (ers : List (String × JVal)) : Option ℕ :=
  ers.foldlM (fun n p => (pyNotInError p.2).map (fun b => if b then n + 1 else n)) 0

/-- The `ConsensusResult` record returned by `build_consensus`. -/
structure ConsensusOut where
  best_agent : JVal
  consensus_scores : List (JVal × ℚ)
  confidence : ℚ
  total_evaluators : ℕ
  evaluation_details : List JVal

/-- The best-agent computation of `build_consensus` (lines 234-251): if no
consensus scores or all exactly zero, fall back to the argmax of the
solution-phase confidences (Python `max`, first maximal), defaulting to
`"agent_a"`; otherwise the argmax of the consensus scores. -/
def bestStep (cs : List (JVal × ℚ)) (sro : Option (List (String × JVal))) :
    Option JVal :=
  if cs.isEmpty || cs.all (fun p => decide (p.2 = 0)) then
    if (sourceConfs (sro.getD [])).isEmpty then some (JVal.str "agent_a")
    else (pyMaxByVal (sourceConfs (sro.getD []))).map JVal.str
  else
    if cs.isEmpty then some (JVal.str "agent_a") else maxByQ cs

/-- `avg_confidence = sum(confidence_scores) / len(confidence_scores) if
confidence_scores else 0.5`. -/
def avgStep (confs : List JVal) : Option ℚ :=
  if confs.isEmpty then some ((1 : ℚ)/2)
  else Option.map (fun s => s / (confs.length : ℚ)) (pySum confs)

/-- `RedisMultiAgentOrchestrator.build_consensus`. `solution_results` is the
optional second argument (`None` and the empty dict both leave the fallback
without source confidences, Python truthiness). -/
def build_consensus (evaluation_results : List (String × JVal))
    (solution_results : Option (List (String × JVal))) : Option ConsensusOut := do
  let st ← evaluation_results.foldlM procEvaluator ⟨[], [], []⟩
  let cs ← consensusScores st.all_scores
  let best ← bestStep cs solution_results
  let avg ← avgStep st.confidence_scores
  let te ← countNonError evaluation_results
  pure ⟨best, cs, avg, te, st.evaluation_details⟩

/-- The `overall_score` (default `0`) one sub-evaluation entry contributes to
agent `a`: it contributes exactly when its `agent_id` (default `None`) is
Python-equal to `a` — the equality Python's dict applies to `all_scores`
keys, under which `True`, `1` and `1.0` are one key. -/
def itemScore (a : JVal) (it : JVal) : Option JVal :=
  match it.getObj? with
  | some g =>
      if pyKeyEq (pyGet g "agent_id" .null) a then
        some (pyGet g "overall_score" (.num 0))
      else none
  | none => none

/-- The scores one evaluator's phase result contributes to agent `a`:
nothing if the result is not a dict or carries an error, otherwise the
contributing `overall_score` values of its `detailed_evaluations` list. -/
def evalContrib (pr : String × JVal) (a : JVal) : List JVal :=
  match pr.2.getObj? with
  | some fs =>
      if (alookup "error" fs).isSome then []
      else
        match alookup "detailed_evaluations" fs with
        | some (.arr items) => items.filterMap (itemScore a)
        | _ => []
  | none => []

/-- Written from the spec: the `overall_score` values (default `0`) collected
for agent `a` — more precisely, for `a`'s Python-key-equality class — from
the `detailed_evaluations` of every error-free evaluator, in evaluator
order. -/
def specCollected (ers : List (String × JVal)) (a : JVal) : List JVal :=
  (ers.map (fun pr => evalContrib pr a)).flatten

/-- The top-level `confidence` one evaluator result contributes to
`confidence_scores`. -/
def evalConf (pr : String × JVal) : List JVal :=
  match pr.2.getObj? with
  | some fs =>
      if (alookup "error" fs).isSome then []
      else
        match alookup "confidence" fs with
        | some c => [c]
        | none => []
  | none => []

/-- All evaluator confidences, in evaluator order. -/
def specConfs (ers : List (String × JVal)) : List JVal :=
  (ers.map evalConf).flatten

/-- Well-formedness of one sub-evaluation entry: a dict whose `agent_id` is
truthy and hashable (an unhashable key raises `TypeError` in the source),
whose `overall_score` (default 0) is numeric and whose `comments` (default
the string `'None'`) is sliceable. -/
def evalItemWF (it : JVal) : Bool :=
  match it.getObj? with
  | some g => pyTruthy (pyGet g "agent_id" .null)
      && pyHashable (pyGet g "agent_id" .null)
      && (asNum? (pyGet g "overall_score" (.num 0))).isSome
      && sliceable (pyGet g "comments" (.str "None"))
  | none => false

/-- Well-formedness of one evaluator's phase result: a dict; when error-free,
its `detailed_evaluations` (when present) is a list of well-formed entries
and its `confidence` (when present) is numeric. -/
def evalWF (ev : JVal) : Bool :=
  match ev.getObj? with
  | some fs =>
      if (alookup "error" fs).isSome then true
      else
        (match alookup "detailed_evaluations" fs with
         | none => true
         | some (.arr items) => items.all evalItemWF
         | some _ => false)
        && (match alookup "confidence" fs with
            | none => true
            | some c => (asNum? c).isSome)
  | none => false

/-- Well-formedness of an evaluation `PhaseResult`. -/
def evalsWF (ers : List (String × JVal)) : Bool := ers.all (fun pr => evalWF pr.2)

/-- Well-formedness of the solution results for the fallback: every collected
source confidence is numeric, so Python `max` cannot raise. -/
def srWF (sro : Option (List (String × JVal))) : Bool :=
  (sourceConfs (sro.getD [])).all (fun p => (asNum? p.2).isSome)

/-! ## Association-list lemmas for the consensus development -/

theorem alookup_none_iff {κ α : Type} [DecidableEq κ] {k : κ} {m : List (κ × α)} :
    alookup k m = none ↔ k ∉ m.map Prod.fst := by
  induction m with
  | nil => simp [alookup]
  | cons p rest ih =>
      obtain ⟨k', v⟩ := p
      by_cases hk : k' = k
      · subst hk
        simp [alookup]
      · simp [alookup, hk, ih, Ne.symm hk]

theorem alookup_mem {κ α : Type} [DecidableEq κ] {k : κ} {v : α} {m : List (κ × α)}
    (h : alookup k m = some v) : (k, v) ∈ m := by
  induction m with
  | nil => simp [alookup] at h
  | cons p rest ih =>
      obtain ⟨k', v'⟩ := p
      by_cases hk : k' = k
      · subst hk
        have hv : v' = v := by simpa [alookup] using h
        subst hv
        exact List.mem_cons_self _ _
      · simp only [alookup, if_neg hk] at h
        exact List.mem_cons_of_mem _ (ih h)

theorem mem_alookup {κ α : Type} [DecidableEq κ] {k : κ} {v : α} {m : List (κ × α)}
    (hnod : (m.map Prod.fst).Nodup) (h : (k, v) ∈ m) : alookup k m = some v := by
  induction m with
  | nil => simp at h
  | cons p rest ih =>
      obtain ⟨k', v'⟩ := p
      simp only [List.map_cons, List.nodup_cons] at hnod
      rcases List.mem_cons.mp h with h1 | h1
      · obtain ⟨h2, h3⟩ := Prod.mk.injEq .. ▸ h1.symm
        subst h2
        subst h3
        simp [alookup]
      · have hk : k' ≠ k := by
          intro he
          subst he
          exact hnod.1 (List.mem_map_of_mem Prod.fst h1)
        simp only [alookup, if_neg hk]
        exact ih hnod.2 h1

theorem aset_absent {κ α : Type} [DecidableEq κ] {k : κ} (v : α) {m : List (κ × α)}
    (h : alookup k m = none) : aset k v m = m ++ [(k, v)] := by
  induction m with
  | nil => rfl
  | cons p rest ih =>
      obtain ⟨k', v'⟩ := p
      by_cases hk : k' = k
      · subst hk
        simp [alookup] at h
      · simp only [alookup, if_neg hk] at h
        simp [aset, hk, ih h]

theorem aset_keys_present {κ α : Type} [DecidableEq κ] {k : κ} (v : α) {m : List (κ × α)}
    (h : (alookup k m).isSome) : (aset k v m).map Prod.fst = m.map Prod.fst := by
  induction m with
  | nil => simp [alookup] at h
  | cons p rest ih =>
      obtain ⟨k', v'⟩ := p
      by_cases hk : k' = k
      · simp [aset, hk]
      · simp only [alookup, if_neg hk] at h
        simp [aset, hk, ih h]

/-- Pairwise Python-inequality of a dict's keys: what a real `dict`
guarantees of its key set. -/
def pKeysND {α : Type} (m : List (JVal × α)) : Prop :=
  (m.map Prod.fst).Pairwise (fun k k' => pyKeyEq k k' = false)

theorem pKeysND_nodup {α : Type} {m : List (JVal × α)} (h : pKeysND m) :
    (m.map Prod.fst).Nodup := by
  refine h.imp ?_
  intro a b hab he
  rw [he, pyKeyEq_refl] at hab
  cases hab

theorem plookup_none_of_all {α : Type} {a : JVal} {m : List (JVal × α)}
    (h : ∀ q ∈ m, pyKeyEq q.1 a = false) : plookup a m = none := by
  induction m with
  | nil => rfl
  | cons p rest ih =>
      obtain ⟨k, v⟩ := p
      have hk := h (k, v) (List.mem_cons_self _ _)
      simp only at hk
      rw [plookup, if_neg (by rw [hk]; decide)]
      exact ih (fun q hq => h q (List.mem_cons_of_mem _ hq))

theorem plookup_mem {α : Type} {k : JVal} {v : α} {m : List (JVal × α)}
    (h : plookup k m = some v) : ∃ k', (k', v) ∈ m ∧ pyKeyEq k' k = true := by
  induction m with
  | nil => cases h
  | cons p rest ih =>
      obtain ⟨k', v'⟩ := p
      by_cases hk : pyKeyEq k' k = true
      · rw [plookup, if_pos hk] at h
        injection h with hv
        subst hv
        exact ⟨k', List.mem_cons_self _ _, hk⟩
      · rw [plookup, if_neg hk] at h
        obtain ⟨k2, hmem, heq⟩ := ih h
        exact ⟨k2, List.mem_cons_of_mem _ hmem, heq⟩

theorem mem_plookup {α : Type} {m : List (JVal × α)} (hnod : pKeysND m)
    {p : JVal × α} (hp : p ∈ m) : plookup p.1 m = some p.2 := by
  induction m with
  | nil => cases hp
  | cons q rest ih =>
      obtain ⟨k', v'⟩ := q
      rw [pKeysND, List.map_cons, List.pairwise_cons] at hnod
      rcases List.mem_cons.mp hp with h1 | h1
      · rw [h1]
        simp [plookup, pyKeyEq_refl]
      · have hk : pyKeyEq k' p.1 = false :=
          hnod.1 p.1 (List.mem_map_of_mem Prod.fst h1)
        rw [plookup, if_neg (by rw [hk]; decide)]
        exact ih hnod.2 h1

theorem appendScore_self {m : List (JVal × List JVal)} {k a : JVal} (s : JVal)
    (ha : pyKeyEq k a = true) :
    plookup a (appendScore m k s) = some ((plookup a m).getD [] ++ [s]) := by
  induction m with
  | nil => simp only [appendScore, plookup, if_pos ha]; rfl
  | cons p rest ih =>
      obtain ⟨k', vs⟩ := p
      by_cases hk : pyKeyEq k' k = true
      · have hka : pyKeyEq k' a = true := pyKeyEq_trans hk ha
        simp only [appendScore, if_pos hk, plookup, if_pos hka, Option.getD_some]
      · have hka : pyKeyEq k' a = false := by
          by_cases h2 : pyKeyEq k' a = true
          · exact absurd (pyKeyEq_trans h2 (pyKeyEq_symm ha)) hk
          · rwa [Bool.not_eq_true] at h2
        have hka' : ¬(pyKeyEq k' a = true) := by rw [hka]; decide
        simp only [appendScore, if_neg hk, plookup, if_neg hka']
        exact ih

theorem appendScore_ne {m : List (JVal × List JVal)} {k a : JVal} (s : JVal)
    (ha : pyKeyEq k a = false) :
    plookup a (appendScore m k s) = plookup a m := by
  induction m with
  | nil =>
      simp only [appendScore, plookup,
        if_neg (show ¬(pyKeyEq k a = true) by rw [ha]; decide)]
  | cons p rest ih =>
      obtain ⟨k', vs⟩ := p
      by_cases hk : pyKeyEq k' k = true
      · have hka : ¬(pyKeyEq k' a = true) := by
          intro h2
          have h3 := pyKeyEq_trans (pyKeyEq_symm hk) h2
          rw [ha] at h3
          cases h3
        simp only [appendScore, if_pos hk, plookup, if_neg hka]
      · simp only [appendScore, if_neg hk, plookup]
        by_cases hka : pyKeyEq k' a = true
        · simp only [if_pos hka]
        · simp only [if_neg hka]
          exact ih

theorem appendScore_keys {m : List (JVal × List JVal)} {k : JVal} {s : JVal} :
    ∀ q ∈ appendScore m k s, q.1 ∈ m.map Prod.fst ∨ q.1 = k := by
  induction m with
  | nil =>
      intro q hq
      simp only [appendScore] at hq
      rcases (by simpa using hq : q = (k, [s])) with h
      right
      rw [h]
  | cons p rest ih =>
      obtain ⟨k', vs⟩ := p
      intro q hq
      by_cases hk : pyKeyEq k' k = true
      · simp only [appendScore, if_pos hk] at hq
        rcases List.mem_cons.mp hq with h1 | h1
        · left; rw [h1]; simp
        · left
          simp only [List.map_cons]
          exact List.mem_cons_of_mem _ (List.mem_map_of_mem Prod.fst h1)
      · simp only [appendScore, if_neg hk] at hq
        rcases List.mem_cons.mp hq with h1 | h1
        · left; rw [h1]; simp
        · rcases ih q h1 with h2 | h2
          · left
            simp only [List.map_cons]
            exact List.mem_cons_of_mem _ h2
          · right; exact h2

theorem appendScore_nodup {m : List (JVal × List JVal)} {k : JVal} (s : JVal)
    (hnod : pKeysND m) : pKeysND (appendScore m k s) := by
  induction m with
  | nil =>
      simp only [appendScore, pKeysND, List.map_cons, List.map_nil]
      exact List.pairwise_singleton _ _
  | cons p rest ih =>
      obtain ⟨k', vs⟩ := p
      rw [pKeysND, List.map_cons, List.pairwise_cons] at hnod
      by_cases hk : pyKeyEq k' k = true
      · simp only [appendScore, if_pos hk, pKeysND, List.map_cons,
          List.pairwise_cons]
        exact ⟨hnod.1, hnod.2⟩
      · simp only [appendScore, if_neg hk, pKeysND, List.map_cons,
          List.pairwise_cons]
        constructor
        · intro x hx
          obtain ⟨q, hq, hqx⟩ := List.mem_map.mp hx
          subst hqx
          rcases appendScore_keys q hq with h1 | h1
          · exact hnod.1 q.1 h1
          · rw [h1]
            rwa [Bool.not_eq_true] at hk
        · exact ih hnod.2

/-- The collected score lists agree with a spec-level description `f`: an
agent's Python-equality class keys `all_scores` exactly when its collected
list is nonempty, and then holds that list. -/
def scoresAgree (m : List (JVal × List JVal)) (f : JVal → List JVal) : Prop :=
  ∀ a, plookup a m = if f a = [] then none else some (f a)

theorem scoresAgree_congr {m : List (JVal × List JVal)} {f g : JVal → List JVal}
    (hfg : ∀ a, f a = g a) (h : scoresAgree m f) : scoresAgree m g := by
  intro a
  rw [← hfg a]
  exact h a

theorem scoresAgree_append {m : List (JVal × List JVal)} {f : JVal → List JVal}
    (hag : scoresAgree m f) (k : JVal) (s : JVal) :
    scoresAgree (appendScore m k s)
      (fun a => f a ++ (if pyKeyEq k a then [s] else [])) := by
  intro a
  by_cases hk : pyKeyEq k a = true
  · rw [appendScore_self s hk, hag a]
    by_cases hf : f a = []
    · simp [hf, hk]
    · simp [hf, hk]
  · have hk' : pyKeyEq k a = false := by rwa [Bool.not_eq_true] at hk
    rw [appendScore_ne s hk', hag a]
    simp [hk']

/-! ## The evaluator loop's invariant -/

theorem foldItems_spec (e : String) :
    ∀ (items : List JVal) (st : CState) (f : JVal → List JVal),
      items.all evalItemWF = true → scoresAgree st.all_scores f →
      pKeysND st.all_scores →
      ∃ st', items.foldlM (procItem e) st = some st'
        ∧ scoresAgree st'.all_scores (fun a => f a ++ items.filterMap (itemScore a))
        ∧ pKeysND st'.all_scores
        ∧ st'.confidence_scores = st.confidence_scores := by
  intro items
  induction items with
  | nil =>
      intro st f _ hag hnod
      refine ⟨st, rfl, ?_, hnod, rfl⟩
      exact scoresAgree_congr (fun a => by simp) hag
  | cons it rest ih =>
      intro st f hall hag hnod
      rw [List.all_cons, Bool.and_eq_true] at hall
      obtain ⟨hit, hrest⟩ := hall
      cases hobj : it.getObj? with
      | none => simp [evalItemWF, hobj] at hit
      | some g =>
          simp only [evalItemWF, hobj, Bool.and_eq_true] at hit
          obtain ⟨⟨⟨htr, hhash⟩, _⟩, hsl⟩ := hit
          have hstep : procItem e st it = some ⟨appendScore st.all_scores
              (pyGet g "agent_id" .null) (pyGet g "overall_score" (.num 0)),
              st.confidence_scores,
              st.evaluation_details ++ [detailItem e (pyGet g "agent_id" .null)
                (pyGet g "overall_score" (.num 0)) it]⟩ := by
            simp only [procItem, hobj, hsl, htr, hhash, Bool.not_true,
              Bool.and_false, Bool.false_eq_true, if_false, if_true]
          rw [List.foldlM_cons, hstep, Option.bind_eq_bind, Option.some_bind]
          have hag2 := scoresAgree_append hag (pyGet g "agent_id" .null)
            (pyGet g "overall_score" (.num 0))
          have hnod2 := appendScore_nodup (m := st.all_scores)
            (k := pyGet g "agent_id" .null) (pyGet g "overall_score" (.num 0)) hnod
          obtain ⟨st', hfold, hag', hnod', hconf⟩ :=
            ih ⟨appendScore st.all_scores (pyGet g "agent_id" .null)
                  (pyGet g "overall_score" (.num 0)),
                st.confidence_scores,
                st.evaluation_details ++ [detailItem e (pyGet g "agent_id" .null)
                  (pyGet g "overall_score" (.num 0)) it]⟩
              _ hrest hag2 hnod2
          refine ⟨st', hfold, ?_, hnod', hconf⟩
          refine scoresAgree_congr ?_ hag'
          intro a
          rw [List.filterMap_cons]
          have hitem : itemScore a it
              = if pyKeyEq (pyGet g "agent_id" .null) a
                then some (pyGet g "overall_score" (.num 0)) else none := by
            simp only [itemScore, hobj]
          rw [hitem]
          by_cases hk : pyKeyEq (pyGet g "agent_id" .null) a = true
          · simp [hk]
          · simp [hk]

theorem specCollected_cons (pr : String × JVal) (ers : List (String × JVal)) (a : JVal) :
    specCollected (pr :: ers) a = evalContrib pr a ++ specCollected ers a := by
  simp [specCollected]

theorem specConfs_cons (pr : String × JVal) (ers : List (String × JVal)) :
    specConfs (pr :: ers) = evalConf pr ++ specConfs ers := by
  simp [specConfs]

theorem procEvaluator_spec (pr : String × JVal) (st : CState) (f : JVal → List JVal)
    (hwf : evalWF pr.2 = true) (hag : scoresAgree st.all_scores f)
    (hnod : pKeysND st.all_scores) :
    ∃ st', procEvaluator st pr = some st'
      ∧ scoresAgree st'.all_scores (fun a => f a ++ evalContrib pr a)
      ∧ pKeysND st'.all_scores
      ∧ st'.confidence_scores = st.confidence_scores ++ evalConf pr := by
  cases hobj : pr.2.getObj? with
  | none => simp [evalWF, hobj] at hwf
  | some fs =>
      by_cases herr : (alookup "error" fs).isSome
      · refine ⟨st, by simp [procEvaluator, hobj, herr], ?_, hnod, ?_⟩
        · exact scoresAgree_congr (fun a => by simp [evalContrib, hobj, herr]) hag
        · simp [evalConf, hobj, herr]
      · have herr' : (alookup "error" fs).isSome = false := by simpa using herr
        simp only [evalWF, hobj, herr', Bool.false_eq_true, if_false,
          Bool.and_eq_true] at hwf
        obtain ⟨hde, _⟩ := hwf
        cases hd : alookup "detailed_evaluations" fs with
        | none =>
            cases hc : alookup "confidence" fs with
            | none =>
                refine ⟨st, by simp [procEvaluator, hobj, herr', hd, hc], ?_, hnod, ?_⟩
                · exact scoresAgree_congr
                    (fun a => by simp [evalContrib, hobj, herr', hd]) hag
                · simp [evalConf, hobj, herr', hc]
            | some c =>
                refine ⟨{st with confidence_scores := st.confidence_scores ++ [c]},
                  by simp [procEvaluator, hobj, herr', hd, hc], ?_, hnod, ?_⟩
                · exact scoresAgree_congr
                    (fun a => by simp [evalContrib, hobj, herr', hd]) hag
                · simp [evalConf, hobj, herr', hc]
        | some v =>
            rw [hd] at hde
            cases v with
            | arr items =>
                have hiter : pyIter (JVal.arr items) = some items := rfl
                simp only at hde
                obtain ⟨st1, hfold, hag1, hnod1, hconf1⟩ :=
                  foldItems_spec pr.1 items st f hde hag hnod
                have hcontrib : ∀ a, f a ++ items.filterMap (itemScore a)
                    = f a ++ evalContrib pr a := by
                  intro a
                  simp [evalContrib, hobj, herr', hd]
                cases hc : alookup "confidence" fs with
                | none =>
                    refine ⟨st1, ?_, ?_, hnod1, ?_⟩
                    · simp [procEvaluator, hobj, herr', hd, hiter, hfold, hc]
                    · exact scoresAgree_congr hcontrib hag1
                    · simp [evalConf, hobj, herr', hc, hconf1]
                | some c =>
                    refine ⟨{st1 with confidence_scores :=
                        st1.confidence_scores ++ [c]}, ?_, ?_, hnod1, ?_⟩
                    · simp [procEvaluator, hobj, herr', hd, hiter, hfold, hc]
                    · exact scoresAgree_congr hcontrib hag1
                    · simp [evalConf, hobj, herr', hc, hconf1]
            | null => simp at hde
            | bool b => simp at hde
            | num q => simp at hde
            | str s => simp at hde
            | obj fs2 => simp at hde

theorem foldEvals_spec :
    ∀ (ers : List (String × JVal)) (st : CState) (f : JVal → List JVal),
      evalsWF ers = true → scoresAgree st.all_scores f →
      pKeysND st.all_scores →
      ∃ st', ers.foldlM procEvaluator st = some st'
        ∧ scoresAgree st'.all_scores (fun a => f a ++ specCollected ers a)
        ∧ pKeysND st'.all_scores
        ∧ st'.confidence_scores = st.confidence_scores ++ specConfs ers := by
  intro ers
  induction ers with
  | nil =>
      intro st f _ hag hnod
      refine ⟨st, rfl, ?_, hnod, by simp [specConfs]⟩
      exact scoresAgree_congr (fun a => by simp [specCollected]) hag
  | cons pr rest ih =>
      intro st f hall hag hnod
      rw [evalsWF, List.all_cons, Bool.and_eq_true] at hall
      obtain ⟨hpr, hrest⟩ := hall
      obtain ⟨st1, hstep, hag1, hnod1, hconf1⟩ := procEvaluator_spec pr st f hpr hag hnod
      obtain ⟨st', hfold, hag', hnod', hconf'⟩ := ih st1 _ hrest hag1 hnod1
      refine ⟨st', ?_, ?_, hnod', ?_⟩
      · rw [List.foldlM_cons, hstep, Option.bind_eq_bind, Option.some_bind]
        exact hfold
      · refine scoresAgree_congr ?_ hag'
        intro a
        rw [specCollected_cons, List.append_assoc]
      · rw [hconf', hconf1, specConfs_cons, List.append_assoc]

/-! ## Consensus scores and argmax lemmas -/

/-- The numeric readings of a list of scores: `some` exactly when every
element is a Python number. -/
def mapNums : List JVal → Option (List ℚ)
  | [] => some []
  | x :: rest => (asNum? x).bind (fun q => (mapNums rest).map (fun qs => q :: qs))

/-- The consensus entry one `all_scores` entry yields: the arithmetic mean of
its (numeric) scores, skipping empty lists. -/
def mkCS (p : JVal × List JVal) : Option (JVal × ℚ) :=
  match mapNums p.2 with
  | some qs => if p.2.isEmpty then none else some (p.1, qs.sum / (p.2.length : ℚ))
  | none => none

theorem pySum_eq {xs : List JVal} {qs : List ℚ} (h : mapNums xs = some qs) :
    pySum xs = some qs.sum := by
  suffices haux : ∀ (xs : List JVal) (qs : List ℚ) (acc : ℚ), mapNums xs = some qs →
      xs.foldlM (fun acc v => (asNum? v).map (fun q => acc + q)) acc
        = some (acc + qs.sum) by
    have := haux xs qs 0 h
    rw [pySum, this, zero_add]
  intro xs
  induction xs with
  | nil =>
      intro qs acc h
      simp only [mapNums, Option.some.injEq] at h
      subst h
      simp
  | cons x rest ih =>
      intro qs acc h
      simp only [mapNums] at h
      cases hx : asNum? x with
      | none => simp [hx] at h
      | some q =>
          rw [hx] at h
          cases hr : mapNums rest with
          | none => simp [hr] at h
          | some qs' =>
              rw [hr] at h
              simp at h
              subst h
              rw [List.foldlM_cons, hx]
              simp only [Option.map_some', Option.bind_eq_bind, Option.some_bind]
              rw [ih qs' (acc + q) hr, List.sum_cons]
              ring_nf

theorem consensusScores_eq {m : List (JVal × List JVal)}
    (hnum : ∀ p ∈ m, (mapNums p.2).isSome) :
    consensusScores m = some (m.filterMap mkCS) := by
  suffices haux : ∀ (m : List (JVal × List JVal)) (acc : List (JVal × ℚ)),
      (∀ p ∈ m, (mapNums p.2).isSome) →
      m.foldlM (fun acc p =>
        if p.2.isEmpty then some acc
        else (pySum p.2).map (fun s => acc ++ [(p.1, s / (p.2.length : ℚ))])) acc
        = some (acc ++ m.filterMap mkCS) by
    have := haux m [] hnum
    rw [consensusScores, this, List.nil_append]
  intro m
  induction m with
  | nil => intro acc _; simp
  | cons p rest ih =>
      intro acc hnum
      obtain ⟨qs, hqs⟩ := Option.isSome_iff_exists.mp
        (hnum p (List.mem_cons_self p rest))
      have hrest : ∀ r ∈ rest, (mapNums r.2).isSome :=
        fun r hr => hnum r (List.mem_cons_of_mem p hr)
      rw [List.foldlM_cons]
      by_cases hempty : p.2.isEmpty
      · have hmk : mkCS p = none := by simp [mkCS, hqs, hempty]
        simp only [hempty, if_true, Option.bind_eq_bind, Option.some_bind,
          List.filterMap_cons, hmk]
        exact ih acc hrest
      · have hmk : mkCS p = some (p.1, qs.sum / (p.2.length : ℚ)) := by
          simp [mkCS, hqs, hempty]
        simp only [hempty, Bool.false_eq_true, if_false, pySum_eq hqs,
          Option.map_some', Option.bind_eq_bind, Option.some_bind,
          List.filterMap_cons, hmk]
        rw [ih _ hrest, List.append_assoc, List.singleton_append]

theorem alookup_filterMap_keymap {κ β γ : Type} [DecidableEq κ]
    (g : κ × β → Option (κ × γ)) (hkey : ∀ p q, g p = some q → q.1 = p.1) :
    ∀ (m : List (κ × β)) (a : κ), (m.map Prod.fst).Nodup →
      alookup a (m.filterMap g)
        = (alookup a m).bind (fun xs => (g (a, xs)).map Prod.snd) := by
  intro m
  induction m with
  | nil => intro a _; simp [alookup]
  | cons p rest ih =>
      intro a hnod
      obtain ⟨k, xs⟩ := p
      simp only [List.map_cons, List.nodup_cons] at hnod
      by_cases hk : k = a
      · subst hk
        have hrest : alookup k rest = none :=
          alookup_none_iff.mpr hnod.1
        cases hg : g (k, xs) with
        | none =>
            simp only [List.filterMap_cons, hg, alookup, if_pos rfl]
            rw [ih k hnod.2, hrest]
            simp [hg]
        | some q =>
            have hq1 : q.1 = k := hkey _ _ hg
            simp only [List.filterMap_cons, hg, alookup, if_pos rfl]
            obtain ⟨q1, q2⟩ := q
            simp only at hq1
            subst hq1
            simp [alookup, hg]
      · cases hg : g (k, xs) with
        | none =>
            simp only [List.filterMap_cons, hg, alookup, if_neg hk]
            exact ih a hnod.2
        | some q =>
            have hq1 : q.1 = k := hkey _ _ hg
            simp only [List.filterMap_cons, hg, alookup, if_neg hk]
            obtain ⟨q1, q2⟩ := q
            simp only at hq1
            subst hq1
            simp only [alookup, if_neg hk]
            exact ih a hnod.2

theorem keys_filterMap_sublist {κ β γ : Type}
    (g : κ × β → Option (κ × γ)) (hkey : ∀ p q, g p = some q → q.1 = p.1) :
    ∀ m : List (κ × β),
      ((m.filterMap g).map Prod.fst).Sublist (m.map Prod.fst) := by
  intro m
  induction m with
  | nil => simp
  | cons p rest ih =>
      cases hg : g p with
      | none =>
          simp only [List.filterMap_cons, hg, List.map_cons]
          exact ih.cons _
      | some q =>
          simp only [List.filterMap_cons, hg, List.map_cons]
          rw [hkey _ _ hg]
          exact ih.cons₂ _

theorem maxByQ_fold_spec :
    ∀ (rest : List (JVal × ℚ)) (p : JVal × ℚ),
      rest.foldl (fun best r => if best.2 < r.2 then r else best) p ∈ p :: rest
      ∧ p.2 ≤ (rest.foldl (fun best r => if best.2 < r.2 then r else best) p).2
      ∧ ∀ r ∈ rest, r.2 ≤ (rest.foldl (fun best r => if best.2 < r.2 then r else best) p).2 := by
  intro rest
  induction rest with
  | nil => intro p; exact ⟨List.mem_cons_self p [], le_refl _, by simp⟩
  | cons r rest ih =>
      intro p
      rw [List.foldl_cons]
      obtain ⟨hmem, hple, hall⟩ := ih (if p.2 < r.2 then r else p)
      have hp : p.2 ≤ (if p.2 < r.2 then r else p).2 := by
        by_cases h : p.2 < r.2
        · simp [h, le_of_lt h]
        · simp [h]
      have hr : r.2 ≤ (if p.2 < r.2 then r else p).2 := by
        by_cases h : p.2 < r.2
        · simp [h]
        · simp [h, not_lt.mp h]
      refine ⟨?_, le_trans hp hple, ?_⟩
      · rcases List.mem_cons.mp hmem with h1 | h1
        · rw [h1]
          by_cases h : p.2 < r.2
          · simp [h]
          · simp [h]
        · exact List.mem_cons_of_mem _ (List.mem_cons_of_mem _ h1)
      · intro x hx
        rcases List.mem_cons.mp hx with h1 | h1
        · rw [h1]
          exact le_trans hr hple
        · exact hall x h1

theorem maxByQ_spec (p : JVal × ℚ) (rest : List (JVal × ℚ)) :
    ∃ w ∈ p :: rest, maxByQ (p :: rest) = some w.1 ∧ ∀ r ∈ p :: rest, r.2 ≤ w.2 := by
  obtain ⟨hmem, hple, hall⟩ := maxByQ_fold_spec rest p
  refine ⟨_, hmem, rfl, ?_⟩
  intro r hr
  rcases List.mem_cons.mp hr with h1 | h1
  · rw [h1]; exact hple
  · exact hall r h1

theorem pyMaxByVal_fold_spec :
    ∀ (rest : List (String × JVal)) (p : String × JVal) (qp : ℚ),
      asNum? p.2 = some qp →
      (∀ r ∈ rest, (asNum? r.2).isSome) →
      ∃ w qw, rest.foldlM (fun best r =>
          (pyGtJ r.2 best.2).map (fun gt => if gt then r else best)) p = some w
        ∧ w ∈ p :: rest ∧ asNum? w.2 = some qw ∧ qp ≤ qw
        ∧ ∀ r ∈ rest, ∀ qr, asNum? r.2 = some qr → qr ≤ qw := by
  intro rest
  induction rest with
  | nil =>
      intro p qp hp _
      exact ⟨p, qp, rfl, List.mem_cons_self p [], hp, le_refl _, by simp⟩
  | cons r rest ih =>
      intro p qp hp hnum
      obtain ⟨qr, hqr⟩ := Option.isSome_iff_exists.mp
        (hnum r (List.mem_cons_self r rest))
      have hgt : pyGtJ r.2 p.2 = some (decide (qp < qr)) := by
        simp [pyGtJ, hqr, hp]
      rw [List.foldlM_cons, hgt]
      simp only [Option.map_some', Option.bind_eq_bind, Option.some_bind]
      have hnum' : ∀ x ∈ rest, (asNum? x.2).isSome :=
        fun x hx => hnum x (List.mem_cons_of_mem r hx)
      by_cases hlt : qp < qr
      · simp only [decide_eq_true hlt, if_true]
        obtain ⟨w, qw, hfold, hmem, hw, hle, hall⟩ := ih r qr hqr hnum'
        refine ⟨w, qw, hfold, ?_, hw, le_trans (le_of_lt hlt) hle, ?_⟩
        · rcases List.mem_cons.mp hmem with h1 | h1
          · rw [h1]; exact List.mem_cons_of_mem _ (List.mem_cons_self _ _)
          · exact List.mem_cons_of_mem _ (List.mem_cons_of_mem _ h1)
        · intro x hx qx hqx
          rcases List.mem_cons.mp hx with h1 | h1
          · rw [h1] at hqx
            rw [hqx] at hqr
            cases hqr
            exact hle
          · exact hall x h1 qx hqx
      · simp only [decide_eq_false hlt, Bool.false_eq_true, if_false]
        obtain ⟨w, qw, hfold, hmem, hw, hle, hall⟩ := ih p qp hp hnum'
        refine ⟨w, qw, hfold, ?_, hw, hle, ?_⟩
        · rcases List.mem_cons.mp hmem with h1 | h1
          · rw [h1]; exact List.mem_cons_self _ _
          · exact List.mem_cons_of_mem _ (List.mem_cons_of_mem _ h1)
        · intro x hx qx hqx
          rcases List.mem_cons.mp hx with h1 | h1
          · rw [h1] at hqx
            rw [hqx] at hqr
            cases hqr
            exact le_trans (not_lt.mp hlt) hle
          · exact hall x h1 qx hqx

theorem pyMaxByVal_spec (p : String × JVal) (rest : List (String × JVal))
    (hnum : ∀ r ∈ p :: rest, (asNum? r.2).isSome) :
    ∃ w ∈ p :: rest, pyMaxByVal (p :: rest) = some w.1
      ∧ ∀ r ∈ p :: rest, ∀ qr qw, asNum? r.2 = some qr → asNum? w.2 = some qw →
          qr ≤ qw := by
  obtain ⟨qp, hqp⟩ := Option.isSome_iff_exists.mp
    (hnum p (List.mem_cons_self p rest))
  obtain ⟨w, qw, hfold, hmem, hw, hle, hall⟩ :=
    pyMaxByVal_fold_spec rest p qp hqp
      (fun r hr => hnum r (List.mem_cons_of_mem p hr))
  refine ⟨w, hmem, ?_, ?_⟩
  · simp [pyMaxByVal, hfold]
  · intro r hr qr qw' hqr hqw'
    rw [hw] at hqw'
    cases hqw'
    rcases List.mem_cons.mp hr with h1 | h1
    · rw [h1] at hqr
      rw [hqr] at hqp
      cases hqp
      exact hle
    · exact hall r h1 qr hqr

/-! ## Well-formedness consequences -/

theorem mapNums_of_all {xs : List JVal} (h : ∀ s ∈ xs, (asNum? s).isSome) :
    (mapNums xs).isSome := by
  induction xs with
  | nil => rfl
  | cons x rest ih =>
      obtain ⟨q, hq⟩ := Option.isSome_iff_exists.mp (h x (List.mem_cons_self x rest))
      obtain ⟨qs, hqs⟩ := Option.isSome_iff_exists.mp
        (ih fun s hs => h s (List.mem_cons_of_mem x hs))
      simp [mapNums, hq, hqs]

theorem mapNums_zero {xs : List JVal} {qs : List ℚ} (h : mapNums xs = some qs)
    (hz : ∀ s ∈ xs, s = JVal.num 0) : ∀ q ∈ qs, q = 0 := by
  induction xs generalizing qs with
  | nil =>
      simp only [mapNums, Option.some.injEq] at h
      subst h
      simp
  | cons x rest ih =>
      simp only [mapNums] at h
      cases hx : asNum? x with
      | none => simp [hx] at h
      | some q =>
          rw [hx] at h
          cases hr : mapNums rest with
          | none => simp [hr] at h
          | some qs' =>
              rw [hr] at h
              simp at h
              subst h
              intro y hy
              rcases List.mem_cons.mp hy with h1 | h1
              · subst h1
                have := hz x (List.mem_cons_self x rest)
                subst this
                simp only [asNum?, Option.some.injEq] at hx
                exact hx.symm
              · exact ih hr (fun s hs => hz s (List.mem_cons_of_mem x hs)) y h1

theorem specCollected_num {ers : List (String × JVal)} (hwf : evalsWF ers = true) :
    ∀ (a : JVal), ∀ s ∈ specCollected ers a, (asNum? s).isSome := by
  intro a s hs
  rw [specCollected] at hs
  obtain ⟨l, hl, hsl⟩ := List.mem_flatten.mp hs
  obtain ⟨pr, hpr, hlpr⟩ := List.mem_map.mp hl
  subst hlpr
  have hpwf : evalWF pr.2 = true := by
    rw [evalsWF, List.all_eq_true] at hwf
    exact hwf pr hpr
  cases hobj : pr.2.getObj? with
  | none => simp [evalContrib, hobj] at hsl
  | some fs =>
      simp only [evalContrib, hobj] at hsl
      by_cases herr : (alookup "error" fs).isSome
      · simp [herr] at hsl
      · have herr' : (alookup "error" fs).isSome = false := by simpa using herr
        rw [herr'] at hsl
        simp only [Bool.false_eq_true, if_false] at hsl
        cases hd : alookup "detailed_evaluations" fs with
        | none => rw [hd] at hsl; simp at hsl
        | some v =>
            rw [hd] at hsl
            cases v with
            | arr items =>
                have hsl' : s ∈ items.filterMap (itemScore a) := hsl
                obtain ⟨it, hit, hscore⟩ := List.mem_filterMap.mp hsl'
                simp only [evalWF, hobj, herr', Bool.false_eq_true, if_false, hd,
                  Bool.and_eq_true] at hpwf
                have hitwf : evalItemWF it = true := by
                  have := hpwf.1
                  rw [List.all_eq_true] at this
                  exact this it hit
                cases hio : it.getObj? with
                | none => simp [itemScore, hio] at hscore
                | some g =>
                    simp only [itemScore, hio] at hscore
                    simp only [evalItemWF, hio, Bool.and_eq_true] at hitwf
                    by_cases hag : pyKeyEq (pyGet g "agent_id" .null) a = true
                    · rw [if_pos hag] at hscore
                      injection hscore with hh
                      subst hh
                      exact hitwf.1.2
                    · rw [if_neg hag] at hscore
                      cases hscore
            | null => simp at hsl
            | bool b => simp at hsl
            | num q => simp at hsl
            | str s2 => simp at hsl
            | obj fs2 => simp at hsl

theorem specConfs_num {ers : List (String × JVal)} (hwf : evalsWF ers = true) :
    ∀ c ∈ specConfs ers, (asNum? c).isSome := by
  intro c hc
  rw [specConfs] at hc
  obtain ⟨l, hl, hcl⟩ := List.mem_flatten.mp hc
  obtain ⟨pr, hpr, hlpr⟩ := List.mem_map.mp hl
  subst hlpr
  have hpwf : evalWF pr.2 = true := by
    rw [evalsWF, List.all_eq_true] at hwf
    exact hwf pr hpr
  cases hobj : pr.2.getObj? with
  | none => simp [evalConf, hobj] at hcl
  | some fs =>
      simp only [evalConf, hobj] at hcl
      by_cases herr : (alookup "error" fs).isSome
      · simp [herr] at hcl
      · have herr' : (alookup "error" fs).isSome = false := by simpa using herr
        rw [herr'] at hcl
        simp only [Bool.false_eq_true, if_false] at hcl
        cases hcf : alookup "confidence" fs with
        | none => rw [hcf] at hcl; simp at hcl
        | some c0 =>
            rw [hcf] at hcl
            simp only [List.mem_singleton] at hcl
            subst hcl
            simp only [evalWF, hobj, herr', Bool.false_eq_true, if_false, hcf,
              Bool.and_eq_true] at hpwf
            exact hpwf.2

theorem getObj?_eq_some {v : JVal} {fs : Rec} (h : v.getObj? = some fs) :
    v = .obj fs := by
  cases v <;> simp_all [JVal.getObj?]

theorem countNonError_some {ers : List (String × JVal)} (hwf : evalsWF ers = true) :
    ∃ n, countNonError ers = some n := by
  suffices haux : ∀ (ers : List (String × JVal)) (acc : ℕ),
      (∀ p ∈ ers, (pyNotInError p.2).isSome) →
      ∃ n, ers.foldlM (fun n p =>
        (pyNotInError p.2).map (fun b => if b then n + 1 else n)) acc = some n by
    apply haux
    intro p hp
    rw [evalsWF, List.all_eq_true] at hwf
    have := hwf p hp
    unfold evalWF at this
    cases hobj : p.2.getObj? with
    | none => rw [hobj] at this; simp at this
    | some fs =>
        rw [getObj?_eq_some hobj]
        simp [pyNotInError]
  intro ers
  induction ers with
  | nil => intro acc _; exact ⟨acc, rfl⟩
  | cons p rest ih =>
      intro acc h
      obtain ⟨b, hb⟩ := Option.isSome_iff_exists.mp (h p (List.mem_cons_self p rest))
      rw [List.foldlM_cons, hb]
      simp only [Option.map_some', Option.bind_eq_bind, Option.some_bind]
      exact ih _ (fun r hr => h r (List.mem_cons_of_mem p hr))

theorem avgStep_some {confs : List JVal} (h : ∀ c ∈ confs, (asNum? c).isSome) :
    ∃ v, avgStep confs = some v := by
  unfold avgStep
  by_cases he : confs.isEmpty
  · exact ⟨_, by rw [if_pos he]⟩
  · obtain ⟨qs, hqs⟩ := Option.isSome_iff_exists.mp (mapNums_of_all h)
    exact ⟨_, by rw [if_neg he, pySum_eq hqs, Option.map_some']⟩

theorem mkCS_key {p : JVal × List JVal} {q : JVal × ℚ} (h : mkCS p = some q) :
    q.1 = p.1 := by
  cases hm : mapNums p.2 with
  | none => simp [mkCS, hm] at h
  | some qs =>
      simp only [mkCS, hm] at h
      by_cases he : p.2.isEmpty
      · rw [if_pos he] at h; cases h
      · rw [if_neg he] at h
        injection h with hh
        rw [← hh]

theorem mkCS_snd (k a : JVal) (xs : List JVal) :
    (mkCS (a, xs)).map Prod.snd = (mkCS (k, xs)).map Prod.snd := by
  unfold mkCS
  cases hm : mapNums xs with
  | none => rfl
  | some qs =>
      by_cases he : xs.isEmpty
      · simp [he]
      · simp [he]

theorem pKeysND_filterMap {β γ : Type} (g : JVal × β → Option (JVal × γ))
    (hkey : ∀ p q, g p = some q → q.1 = p.1) {m : List (JVal × β)}
    (hnod : pKeysND m) : pKeysND (m.filterMap g) :=
  List.Pairwise.sublist (keys_filterMap_sublist g hkey m) hnod

theorem plookup_filterMap_mkCS :
    ∀ (m : List (JVal × List JVal)) (a : JVal), pKeysND m →
      plookup a (m.filterMap mkCS)
        = (plookup a m).bind (fun xs => (mkCS (a, xs)).map Prod.snd) := by
  intro m
  induction m with
  | nil => intro a _; simp [plookup]
  | cons p rest ih =>
      intro a hnod
      obtain ⟨k, xs⟩ := p
      rw [pKeysND, List.map_cons, List.pairwise_cons] at hnod
      have hnone : pyKeyEq k a = true → plookup a (rest.filterMap mkCS) = none := by
        intro hk
        apply plookup_none_of_all
        intro q hq
        obtain ⟨x, hx, hgx⟩ := List.mem_filterMap.mp hq
        have hq1 : q.1 = x.1 := mkCS_key hgx
        by_cases hqa : pyKeyEq q.1 a = true
        · exfalso
          have h1 : pyKeyEq x.1 a = true := hq1 ▸ hqa
          have h2 : pyKeyEq x.1 k = true := pyKeyEq_trans h1 (pyKeyEq_symm hk)
          have h3 : pyKeyEq k x.1 = true := pyKeyEq_symm h2
          have h4 : pyKeyEq k x.1 = false :=
            hnod.1 x.1 (List.mem_map_of_mem Prod.fst hx)
          rw [h4] at h3
          cases h3
        · rwa [Bool.not_eq_true] at hqa
      by_cases hk : pyKeyEq k a = true
      · cases hg : mkCS (k, xs) with
        | some q =>
            obtain ⟨q1, q2⟩ := q
            have hq1 : q1 = k := mkCS_key hg
            subst hq1
            simp only [List.filterMap_cons, hg, plookup, if_pos hk,
              Option.some_bind]
            rw [mkCS_snd q1 a xs, hg]
            rfl
        | none =>
            simp only [List.filterMap_cons, hg, plookup, if_pos hk,
              Option.some_bind]
            rw [mkCS_snd k a xs, hg, hnone hk]
            rfl
      · cases hg : mkCS (k, xs) with
        | some q =>
            obtain ⟨q1, q2⟩ := q
            have hq1 : q1 = k := mkCS_key hg
            subst hq1
            simp only [List.filterMap_cons, hg, plookup, if_neg hk]
            exact ih a hnod.2
        | none =>
            simp only [List.filterMap_cons, hg, plookup, if_neg hk]
            exact ih a hnod.2

theorem aset_nodup {κ α : Type} [DecidableEq κ] {k : κ} (v : α) {m : List (κ × α)}
    (hnod : (m.map Prod.fst).Nodup) : ((aset k v m).map Prod.fst).Nodup := by
  cases h : alookup k m with
  | some xs =>
      rw [aset_keys_present _ (by rw [h]; rfl)]
      exact hnod
  | none =>
      rw [aset_absent _ h, List.map_append]
      refine List.Nodup.append hnod (by simp) ?_
      intro x hx hy
      simp only [List.map_cons, List.map_nil, List.mem_singleton] at hy
      subst hy
      exact alookup_none_iff.mp h hx

/-- The entry one solution-phase result contributes to `source_confidences`. -/
def srcEntry (p : String × JVal) : Option (String × JVal) :=
  p.2.getObj?.bind (fun fs => (alookup "confidence" fs).map (fun c => (p.1, c)))

theorem srcStep_skip {p : String × JVal} (acc : List (String × JVal))
    (h : srcEntry p = none) : srcStep acc p = acc := by
  unfold srcStep
  cases hobj : p.2.getObj? with
  | none => rfl
  | some fs =>
      cases hc : alookup "confidence" fs with
      | none => simp [hc]
      | some c =>
          rw [srcEntry, hobj] at h
          simp [hc] at h

theorem srcStep_add {p : String × JVal} {c : JVal} (acc : List (String × JVal))
    (h : srcEntry p = some (p.1, c)) : srcStep acc p = aset p.1 c acc := by
  unfold srcStep
  cases hobj : p.2.getObj? with
  | none => rw [srcEntry, hobj] at h; cases h
  | some fs =>
      cases hc : alookup "confidence" fs with
      | none => rw [srcEntry, hobj] at h; simp [hc] at h
      | some c' =>
          rw [srcEntry, hobj] at h
          simp only [hc, Option.some_bind, Option.map_some', Option.some.injEq,
            Prod.mk.injEq, true_and] at h
          simp [hc, h]

theorem srcEntry_cases (p : String × JVal) :
    srcEntry p = none ∨ ∃ c, srcEntry p = some (p.1, c) := by
  unfold srcEntry
  cases hobj : p.2.getObj? with
  | none => exact Or.inl rfl
  | some fs =>
      cases hc : alookup "confidence" fs with
      | none => exact Or.inl (by simp [hc])
      | some c => exact Or.inr ⟨c, by simp [hc]⟩

theorem sourceConfs_nodup (sr : List (String × JVal)) :
    ((sourceConfs sr).map Prod.fst).Nodup := by
  suffices haux : ∀ (sr : List (String × JVal)) (acc : List (String × JVal)),
      (acc.map Prod.fst).Nodup →
      ((sr.foldl srcStep acc).map Prod.fst).Nodup from haux sr [] (by simp)
  intro sr
  induction sr with
  | nil => intro acc h; exact h
  | cons p rest ih =>
      intro acc h
      rw [List.foldl_cons]
      rcases srcEntry_cases p with hp | ⟨c, hp⟩
      · rw [srcStep_skip acc hp]
        exact ih acc h
      · rw [srcStep_add acc hp]
        exact ih _ (aset_nodup c h)

theorem sourceConfs_eq {sr : List (String × JVal)}
    (hnod : (sr.map Prod.fst).Nodup) :
    sourceConfs sr = sr.filterMap srcEntry := by
  suffices haux : ∀ (sr : List (String × JVal)) (acc : List (String × JVal)),
      (∀ k ∈ acc.map Prod.fst, k ∉ sr.map Prod.fst) →
      (sr.map Prod.fst).Nodup →
      sr.foldl srcStep acc = acc ++ sr.filterMap srcEntry by
    have := haux sr [] (by simp) hnod
    rw [sourceConfs, this, List.nil_append]
  intro sr
  induction sr with
  | nil => intro acc _ _; simp
  | cons p rest ih =>
      intro acc hdisj hnod
      simp only [List.map_cons, List.nodup_cons] at hnod
      rw [List.foldl_cons, List.filterMap_cons]
      rcases srcEntry_cases p with hsrc | ⟨c, hsrc⟩
      · rw [hsrc, srcStep_skip acc hsrc]
        exact ih acc (fun k hk => fun hmem =>
          hdisj k hk (List.mem_cons_of_mem _ hmem)) hnod.2
      · rw [hsrc, srcStep_add acc hsrc]
        have habs : alookup p.1 acc = none := by
          rw [alookup_none_iff]
          intro hmem
          exact hdisj p.1 hmem (List.mem_cons_self _ _)
        rw [aset_absent _ habs]
        have hstep := ih (acc ++ [(p.1, c)]) ?_ hnod.2
        · rw [hstep, List.append_assoc, List.singleton_append]
        · intro k hk
          rw [List.map_append] at hk
          rcases List.mem_append.mp hk with h1 | h1
          · exact fun hmem => hdisj k h1 (List.mem_cons_of_mem _ hmem)
          · simp only [List.map_cons, List.map_nil, List.mem_singleton] at h1
            subst h1
            exact hnod.1

theorem sourceConfs_lookup {sr : List (String × JVal)}
    (hnod : (sr.map Prod.fst).Nodup) (k : String) :
    alookup k (sourceConfs sr)
      = (alookup k sr).bind (fun v => (srcEntry (k, v)).map Prod.snd) := by
  rw [sourceConfs_eq hnod]
  exact alookup_filterMap_keymap srcEntry
    (fun p q hq => by
      unfold srcEntry at hq
      cases hobj : p.2.getObj? with
      | none => rw [hobj] at hq; cases hq
      | some fs =>
          rw [hobj] at hq
          simp only [Option.some_bind] at hq
          cases hc : alookup "confidence" fs with
          | none => rw [hc] at hq; cases hq
          | some c =>
              rw [hc] at hq
              simp only [Option.map_some', Option.some.injEq] at hq
              rw [← hq]) sr k hnod

/-! ## The consensus characterization -/

theorem build_consensus_eq {ers : List (String × JVal)}
    {sro : Option (List (String × JVal))} {st : CState} {cs : List (JVal × ℚ)}
    {b : JVal} {avg : ℚ} {te : ℕ}
    (hfold : ers.foldlM procEvaluator ⟨[], [], []⟩ = some st)
    (hcs : consensusScores st.all_scores = some cs)
    (hb : bestStep cs sro = some b)
    (havg : avgStep st.confidence_scores = some avg)
    (hte : countNonError ers = some te) :
    build_consensus ers sro = some ⟨b, cs, avg, te, st.evaluation_details⟩ := by
  unfold build_consensus
  rw [hfold]
  simp only [Option.bind_eq_bind, Option.some_bind]
  rw [hcs]
  simp only [Option.some_bind]
  rw [hb]
  simp only [Option.some_bind]
  rw [havg]
  simp only [Option.some_bind]
  rw [hte]
  simp only [Option.some_bind]
  rfl

theorem build_consensus_spec (ers : List (String × JVal))
    (sro : Option (List (String × JVal)))
    (hwf : evalsWF ers = true) (hsr : srWF sro = true) :
    ∃ out, build_consensus ers sro = some out
      ∧ (∀ a qs, mapNums (specCollected ers a) = some qs →
          specCollected ers a ≠ [] →
          plookup a out.consensus_scores
            = some (qs.sum / ((specCollected ers a).length : ℚ)))
      ∧ (∀ a, specCollected ers a = [] → plookup a out.consensus_scores = none)
      ∧ (out.consensus_scores.map Prod.fst).Nodup
      ∧ (∀ p ∈ out.consensus_scores, ∃ qs,
          mapNums (specCollected ers p.1) = some qs ∧ specCollected ers p.1 ≠ []
          ∧ p.2 = qs.sum / ((specCollected ers p.1).length : ℚ))
      ∧ ((out.consensus_scores.isEmpty
            || out.consensus_scores.all (fun p => decide (p.2 = 0))) = true →
          (sourceConfs (sro.getD []) = [] → out.best_agent = .str "agent_a")
          ∧ (sourceConfs (sro.getD []) ≠ [] →
              ∃ w ∈ sourceConfs (sro.getD []), out.best_agent = .str w.1
                ∧ ∀ r ∈ sourceConfs (sro.getD []), ∀ qr qw, asNum? r.2 = some qr →
                    asNum? w.2 = some qw → qr ≤ qw))
      ∧ ((out.consensus_scores.isEmpty
            || out.consensus_scores.all (fun p => decide (p.2 = 0))) = false →
          ∃ p ∈ out.consensus_scores, out.best_agent = p.1
            ∧ ∀ r ∈ out.consensus_scores, r.2 ≤ p.2) := by
  have hag0 : scoresAgree ([] : List (JVal × List JVal)) (fun _ => []) := by
    intro a
    simp [plookup]
  obtain ⟨st, hfold, hagF, hnodF, hconfF⟩ :=
    foldEvals_spec ers ⟨[], [], []⟩ (fun _ => []) hwf hag0 (by simp [pKeysND])
  have hag : scoresAgree st.all_scores (fun a => specCollected ers a) :=
    scoresAgree_congr (fun a => by simp) hagF
  have hconf : st.confidence_scores = specConfs ers := by simpa using hconfF
  have hnum : ∀ p ∈ st.all_scores, (mapNums p.2).isSome := by
    intro p hp
    have hl := mem_plookup hnodF hp
    have hsp := hag p.1
    rw [hl] at hsp
    by_cases hs0 : specCollected ers p.1 = []
    · rw [if_pos hs0] at hsp; cases hsp
    · rw [if_neg hs0] at hsp
      injection hsp with hh
      rw [hh]
      exact mapNums_of_all (fun s hs => specCollected_num hwf p.1 s hs)
  have hcs_eq := consensusScores_eq hnum
  have hclook : ∀ a, plookup a (st.all_scores.filterMap mkCS)
      = (plookup a st.all_scores).bind (fun xs => (mkCS (a, xs)).map Prod.snd) :=
    fun a => plookup_filterMap_mkCS st.all_scores a hnodF
  have hmain1 : ∀ a qs, mapNums (specCollected ers a) = some qs →
      specCollected ers a ≠ [] →
      plookup a (st.all_scores.filterMap mkCS)
        = some (qs.sum / ((specCollected ers a).length : ℚ)) := by
    intro a qs hqs hne
    rw [hclook a, hag a, if_neg hne]
    simp only [Option.some_bind]
    have hemp : (specCollected ers a).isEmpty = false := by
      cases hspec : specCollected ers a with
      | nil => exact absurd hspec hne
      | cons x xs => rfl
    have hmk : mkCS (a, specCollected ers a)
        = some (a, qs.sum / ((specCollected ers a).length : ℚ)) := by
      simp [mkCS, hqs, hemp]
    rw [hmk, Option.map_some']
  have hmain2 : ∀ a, specCollected ers a = [] →
      plookup a (st.all_scores.filterMap mkCS) = none := by
    intro a ha
    rw [hclook a, hag a, if_pos ha]
    rfl
  have hnodcs : ((st.all_scores.filterMap mkCS).map Prod.fst).Nodup :=
    pKeysND_nodup (pKeysND_filterMap mkCS (fun p q h => mkCS_key h) hnodF)
  have hmem : ∀ p ∈ st.all_scores.filterMap mkCS, ∃ qs,
      mapNums (specCollected ers p.1) = some qs ∧ specCollected ers p.1 ≠ []
      ∧ p.2 = qs.sum / ((specCollected ers p.1).length : ℚ) := by
    intro p hp
    obtain ⟨x, hx, hmk⟩ := List.mem_filterMap.mp hp
    obtain ⟨k, xs⟩ := x
    have hkey : p.1 = k := mkCS_key hmk
    have hlx : plookup k st.all_scores = some xs := mem_plookup hnodF hx
    have hspec := hag k
    rw [hlx] at hspec
    by_cases hs0 : specCollected ers k = []
    · rw [if_pos hs0] at hspec; cases hspec
    · rw [if_neg hs0] at hspec
      injection hspec with hh
      have hh' : xs = specCollected ers k := hh
      cases hm : mapNums xs with
      | none => simp [mkCS, hm] at hmk
      | some qs =>
          have hemp : xs.isEmpty = false := by
            rw [hh']
            cases hspec2 : specCollected ers k with
            | nil => exact absurd hspec2 hs0
            | cons y ys => rfl
          simp only [mkCS, hm, hemp, Bool.false_eq_true, if_false] at hmk
          refine ⟨qs, ?_, ?_, ?_⟩
          · rw [hkey, ← hh']; exact hm
          · rw [hkey]; exact hs0
          · have hp2 : p = (k, qs.sum / (xs.length : ℚ)) := by
              injection hmk with hmk2
              exact hmk2.symm
            rw [hp2, hh']
  have hconfnum : ∀ c ∈ st.confidence_scores, (asNum? c).isSome := by
    rw [hconf]
    exact specConfs_num hwf
  obtain ⟨avg, havg⟩ := avgStep_some hconfnum
  obtain ⟨te, hte⟩ := countNonError_some hwf
  by_cases hdeg : ((st.all_scores.filterMap mkCS).isEmpty
      || (st.all_scores.filterMap mkCS).all (fun p => decide (p.2 = 0))) = true
  · cases hsc : sourceConfs (sro.getD []) with
    | nil =>
        have hb : bestStep (st.all_scores.filterMap mkCS) sro
            = some (.str "agent_a") := by
          unfold bestStep
          simp only [hdeg, hsc]
          rfl
        refine ⟨⟨.str "agent_a", st.all_scores.filterMap mkCS, avg, te,
          st.evaluation_details⟩,
          build_consensus_eq hfold hcs_eq hb havg hte,
          hmain1, hmain2, hnodcs, hmem, ?_, ?_⟩
        · intro _
          exact ⟨fun _ => rfl, fun hne => absurd rfl hne⟩
        · intro hfalse
          rw [hdeg] at hfalse
          cases hfalse
    | cons p rest =>
        have hnums : ∀ r ∈ p :: rest, (asNum? r.2).isSome := by
          rw [srWF, hsc, List.all_eq_true] at hsr
          intro r hr
          exact hsr r hr
        obtain ⟨w, hwmem, hwval, hwmax⟩ := pyMaxByVal_spec p rest hnums
        have hb : bestStep (st.all_scores.filterMap mkCS) sro
            = some (.str w.1) := by
          unfold bestStep
          simp only [hdeg, hsc, hwval]
          rfl
        refine ⟨⟨.str w.1, st.all_scores.filterMap mkCS, avg, te,
          st.evaluation_details⟩,
          build_consensus_eq hfold hcs_eq hb havg hte,
          hmain1, hmain2, hnodcs, hmem, ?_, ?_⟩
        · intro _
          refine ⟨fun h0 => absurd h0 (List.cons_ne_nil p rest), fun _ => ?_⟩
          refine ⟨w, hwmem, ?_, hwmax⟩
          rfl
        · intro hfalse
          rw [hdeg] at hfalse
          cases hfalse
  · have hdeg' : ((st.all_scores.filterMap mkCS).isEmpty
        || (st.all_scores.filterMap mkCS).all (fun p => decide (p.2 = 0)))
        = false := by
      simpa using hdeg
    have hne : (st.all_scores.filterMap mkCS).isEmpty = false := by
      rcases Bool.or_eq_false_iff.mp hdeg' with ⟨h1, _⟩
      exact h1
    cases hcs0 : st.all_scores.filterMap mkCS with
    | nil => rw [hcs0] at hne; cases hne
    | cons p rest =>
        obtain ⟨w, hwmem, hwval, hwmax⟩ := maxByQ_spec p rest
        have hb : bestStep (st.all_scores.filterMap mkCS) sro = some w.1 := by
          unfold bestStep
          rw [hcs0] at hdeg' ⊢
          simp only [List.isEmpty_cons, Bool.false_or] at hdeg' ⊢
          simp only [hdeg', Bool.false_eq_true, if_false]
          exact hwval
        refine ⟨⟨w.1, st.all_scores.filterMap mkCS, avg, te,
          st.evaluation_details⟩,
          build_consensus_eq hfold hcs_eq hb havg hte,
          hmain1, hmain2, hnodcs, hmem, ?_, ?_⟩
        · intro htrue
          rw [hdeg'] at htrue
          cases htrue
        · intro _
          refine ⟨w, ?_, rfl, ?_⟩
          · rw [hcs0]; exact hwmem
          · intro r hr
            rw [hcs0] at hr
            exact hwmax r hr

/-! ## Python dict-key semantics of `all_scores`, exercised -/

/-- An evaluator whose sub-evaluation carries a truthy list `agent_id`:
hashing it as a dict key raises `TypeError` in the source. -/
def unhashEvals : List (String × JVal) :=
  [("agent_c", .obj [("detailed_evaluations", .arr [
      .obj [("agent_id", .arr [.num 1]), ("overall_score", .num 0)]])])]

/-- `build_consensus` does not return on a truthy unhashable `agent_id`:
`eval_agent not in all_scores` raises `TypeError: unhashable type`. -/
theorem build_consensus_unhashable_raises :
    build_consensus unhashEvals none = none := rfl

/-- One evaluator scoring `True` 0.4 and `1` 0.8: Python's dict treats the
two as one key. -/
def boolIntEvals : List (String × JVal) :=
  [("agent_c", .obj [("detailed_evaluations", .arr [
      .obj [("agent_id", .bool true), ("overall_score", .num (2/5))],
      .obj [("agent_id", .num 1), ("overall_score", .num (4/5))]])])]

/-- `True` and `1` are merged into a single score list (since
`True == 1` and `hash(True) == hash(1)`), so both lookups see the single
averaged entry 0.6. -/
theorem build_consensus_merges_python_equal_keys :
    ∃ out, build_consensus boolIntEvals none = some out
      ∧ plookup (.num 1) out.consensus_scores = some (3/5)
      ∧ plookup (.bool true) out.consensus_scores = some (3/5) := by
  obtain ⟨out, h0, h1, h2, h3, h4, h5, h6⟩ :=
    build_consensus_spec boolIntEvals none rfl rfl
  have hs1 : specCollected boolIntEvals (.num 1)
      = [.num (2/5), .num (4/5)] := rfl
  have hst : specCollected boolIntEvals (.bool true)
      = [.num (2/5), .num (4/5)] := rfl
  have hv1 : plookup (.num 1) out.consensus_scores = some (3/5) := by
    have h := h1 (.num 1) [2/5, 4/5] (by rw [hs1]; rfl) (by rw [hs1]; simp)
    rw [h, hs1]
    simp only [Option.some.injEq, List.sum_cons, List.sum_nil,
      List.length_cons, List.length_nil]
    norm_num
  have hvt : plookup (.bool true) out.consensus_scores = some (3/5) := by
    have h := h1 (.bool true) [2/5, 4/5] (by rw [hst]; rfl) (by rw [hst]; simp)
    rw [h, hst]
    simp only [Option.some.injEq, List.sum_cons, List.sum_nil,
      List.length_cons, List.length_nil]
    norm_num
  exact ⟨out, h0, hv1, hvt⟩

/-! ## Claims C1, C2 and C10 -/

/-- Claim C1: for every well-formed evaluation `PhaseResult`, the consensus
score of each evaluated agent (looked up under Python's dict-key equality)
is the arithmetic mean of the `overall_score` values collected for it from
the `detailed_evaluations` of every error-free evaluator (error-marked
evaluators contribute nothing, agents with no collected score get no
consensus entry), every consensus entry is such a mean, and — when the
scores are not degenerate — `best_agent` is an evaluated agent of maximal
consensus score. -/
theorem C1_build_consensus_mean (ers : List (String × JVal))
    (sro : Option (List (String × JVal)))
    (hwf : evalsWF ers = true) (hsr : srWF sro = true) :
    ∃ out, build_consensus ers sro = some out
      ∧ (∀ a qs, mapNums (specCollected ers a) = some qs →
          specCollected ers a ≠ [] →
          plookup a out.consensus_scores
            = some (qs.sum / ((specCollected ers a).length : ℚ)))
      ∧ (∀ a, specCollected ers a = [] → plookup a out.consensus_scores = none)
      ∧ (out.consensus_scores.map Prod.fst).Nodup
      ∧ (∀ p ∈ out.consensus_scores, ∃ qs,
          mapNums (specCollected ers p.1) = some qs ∧ specCollected ers p.1 ≠ []
          ∧ p.2 = qs.sum / ((specCollected ers p.1).length : ℚ))
      ∧ ((out.consensus_scores.isEmpty
            || out.consensus_scores.all (fun p => decide (p.2 = 0))) = false →
          ∃ p ∈ out.consensus_scores, out.best_agent = p.1
            ∧ ∀ r ∈ out.consensus_scores, r.2 ≤ p.2) := by
  obtain ⟨out, h0, h1, h2, h3, h4, _, h6⟩ := build_consensus_spec ers sro hwf hsr
  exact ⟨out, h0, h1, h2, h3, h4, h6⟩

/-- Claim C2: whenever every collected score equals exactly zero (or none
were collected at all), the evaluation ranking is discarded: `best_agent`
falls back to the argmax of the solution-phase self-reported confidences
among solution results that carry one, and to `"agent_a"` when none does. -/
theorem C2_build_consensus_zero_fallback (ers : List (String × JVal))
    (sro : Option (List (String × JVal)))
    (hwf : evalsWF ers = true) (hsr : srWF sro = true)
    (hzero : ∀ a, ∀ s ∈ specCollected ers a, s = JVal.num 0) :
    ∃ out, build_consensus ers sro = some out
      ∧ (sourceConfs (sro.getD []) = [] → out.best_agent = .str "agent_a")
      ∧ (sourceConfs (sro.getD []) ≠ [] →
          ∃ w ∈ sourceConfs (sro.getD []), out.best_agent = .str w.1
            ∧ ∀ r ∈ sourceConfs (sro.getD []), ∀ qr qw, asNum? r.2 = some qr →
                asNum? w.2 = some qw → qr ≤ qw) := by
  obtain ⟨out, h0, h1, h2, h3, h4, h5, h6⟩ := build_consensus_spec ers sro hwf hsr
  have hdeg : (out.consensus_scores.isEmpty
      || out.consensus_scores.all (fun p => decide (p.2 = 0))) = true := by
    apply Bool.or_eq_true_iff.mpr
    right
    apply List.all_eq_true.mpr
    intro p hp
    obtain ⟨qs, hqs, hne, hp2⟩ := h4 p hp
    have hz : ∀ q ∈ qs, q = 0 := mapNums_zero hqs (hzero p.1)
    have hsum : qs.sum = 0 := List.sum_eq_zero hz
    apply decide_eq_true
    rw [hp2, hsum, zero_div]
  obtain ⟨ha, hb⟩ := h5 hdeg
  exact ⟨out, h0, ha, hb⟩

/-- The fallback record `solution_phase` posts when its JSON parse fails
(enhanced_agent.py 320-337): a partial record carrying the `error` marker,
completed by `validate_solution_fields`. `extracted` is the salvaged code
(`code_match.group(0)` or the first 1000 characters of the raw response);
an empty salvage yields an empty `code_examples` list (Python truthiness). -/
def fallback_base (errMsg : String) (extracted : String) : Rec :=
  [("solution_overview",
     .str "Solution attempt with fallback due to JSON parsing error"),
   ("code_examples",
     if extracted ≠ "" then
       .arr [.obj [("language", .str "html"),
         ("purpose", .str "Best effort extracted code from response"),
         ("code", .str extracted), ("tested", .bool false),
         ("test_results", .str "Not tested due to parsing error")]]
     else .arr []),
   ("detailed_implementation",
     .str "Used fallback extraction method due to JSON parsing errors"),
   ("error", .str (String.append "JSON parse error: " errMsg))]

def solution_phase_fallback (agentId : String) (errMsg : String)
    (extracted : String) : Rec :=
  validate_solution_fields agentId (fallback_base errMsg extracted)

/-- Claim C10 (implicit): the consensus fallback admits every dict solution
result carrying a `confidence` key, with no exclusion of error-marked
records; since the `solution_phase` parse-failure fallback record carries
both an `error` key and the default confidence `0.5`, an agent whose
solution phase failed is crowned `best_agent` whenever the other collected
confidences are strictly below `0.5`. -/
theorem C10_fallback_crowns_failed_solution (ers sr : List (String × JVal))
    (x agentId errMsg extracted : String)
    (hwf : evalsWF ers = true)
    (hzero : ∀ a, ∀ s ∈ specCollected ers a, s = JVal.num 0)
    (hsr : srWF (some sr) = true)
    (hsrnod : (sr.map Prod.fst).Nodup)
    (hx : alookup x sr
      = some (.obj (solution_phase_fallback agentId errMsg extracted)))
    (hothers : ∀ r ∈ sourceConfs sr, r.1 ≠ x →
      ∀ qr, asNum? r.2 = some qr → qr < 1/2) :
    alookup "error" (solution_phase_fallback agentId errMsg extracted)
        = some (.str (String.append "JSON parse error: " errMsg))
    ∧ alookup "confidence" (solution_phase_fallback agentId errMsg extracted)
        = some (.num (1/2))
    ∧ ∃ out, build_consensus ers (some sr) = some out
        ∧ out.best_agent = .str x := by
  have herrbase : alookup "error" (fallback_base errMsg extracted)
      = some (.str (String.append "JSON parse error: " errMsg)) := by
    simp [fallback_base, alookup]
  have herr : alookup "error" (solution_phase_fallback agentId errMsg extracted)
      = some (.str (String.append "JSON parse error: " errMsg)) := by
    unfold solution_phase_fallback validate_solution_fields
    rw [fixListFields_eq_foldl,
      foldl_fixStep_other (by decide : "error" ∉ list_fields),
      fixConfidence_other _ (by decide : "error" ≠ "confidence"),
      addDefaults_pres _ (by rw [herrbase]; rfl)]
    exact herrbase
  have hcbase : alookup "confidence" (fallback_base errMsg extracted) = none := by
    simp [fallback_base, alookup]
  have hconf : alookup "confidence"
      (solution_phase_fallback agentId errMsg extracted) = some (.num (1/2)) := by
    unfold solution_phase_fallback
    have := vsf_default agentId (fallback_base errMsg extracted)
      ("confidence", .num (1/2)) (conf_default_mem agentId) hcbase
    simpa using this
  refine ⟨herr, hconf, ?_⟩
  obtain ⟨out, h0, h1, h2, h3, h4, h5, h6⟩ :=
    build_consensus_spec ers (some sr) hwf hsr
  have hdeg : (out.consensus_scores.isEmpty
      || out.consensus_scores.all (fun p => decide (p.2 = 0))) = true := by
    apply Bool.or_eq_true_iff.mpr
    right
    apply List.all_eq_true.mpr
    intro p hp
    obtain ⟨qs, hqs, hne, hp2⟩ := h4 p hp
    apply decide_eq_true
    rw [hp2, List.sum_eq_zero (mapNums_zero hqs (hzero p.1)), zero_div]
  obtain ⟨_, hb⟩ := h5 hdeg
  have hxconf : alookup x (sourceConfs sr) = some (.num (1/2)) := by
    rw [sourceConfs_lookup hsrnod x, hx]
    simp only [Option.some_bind, srcEntry, JVal.getObj?, Option.some_bind]
    rw [hconf]
    rfl
  have hxmem : (x, JVal.num (1/2)) ∈ sourceConfs sr := alookup_mem hxconf
  have hscne : sourceConfs ((some sr).getD []) ≠ [] := by
    intro h0'
    rw [show (some sr).getD [] = sr from rfl] at h0'
    rw [h0'] at hxmem
    simp at hxmem
  obtain ⟨w, hwmem, hbest, hwmax⟩ := hb hscne
  have hwnum : (asNum? w.2).isSome := by
    rw [srWF, List.all_eq_true] at hsr
    exact hsr w hwmem
  obtain ⟨qw, hqw⟩ := Option.isSome_iff_exists.mp hwnum
  by_cases hwx : w.1 = x
  · exact ⟨out, h0, by rw [hbest, hwx]⟩
  · exfalso
    have hlt : qw < 1/2 := hothers w hwmem hwx qw hqw
    have hge : (1 : ℚ)/2 ≤ qw :=
      hwmax (x, .num (1/2)) hxmem (1/2) qw rfl hqw
    exact absurd (lt_of_le_of_lt hge hlt) (lt_irrefl _)

/-! ## Concrete inputs for the consensus witnesses -/

/-- Two error-free evaluators: agent_a scores 0.9 and 0.8 (mean 0.85),
agent_b scores 0.7 and 0.6 (mean 0.65). -/
def demoEvals : List (String × JVal) :=
  [("agent_c", .obj [
      ("detailed_evaluations", .arr [
        .obj [("agent_id", .str "agent_a"), ("overall_score", .num (9/10))],
        .obj [("agent_id", .str "agent_b"), ("overall_score", .num (7/10))]]),
      ("confidence", .num (9/10))]),
   ("agent_d", .obj [
      ("detailed_evaluations", .arr [
        .obj [("agent_id", .str "agent_a"), ("overall_score", .num (8/10))],
        .obj [("agent_id", .str "agent_b"), ("overall_score", .num (6/10))]])])]

theorem demoEvals_other (k : JVal) (ha : pyKeyEq (JVal.str "agent_a") k = false)
    (hb : pyKeyEq (JVal.str "agent_b") k = false) :
    specCollected demoEvals k = [] := by
  simp [specCollected, demoEvals, evalContrib, itemScore, JVal.getObj?,
    alookup, pyGet, ha, hb]

/-- Two evaluators whose every `overall_score` is exactly `0`. -/
def zeroEvals : List (String × JVal) :=
  [("agent_c", .obj [
      ("detailed_evaluations", .arr [
        .obj [("agent_id", .str "agent_a"), ("overall_score", .num 0)],
        .obj [("agent_id", .str "agent_b"), ("overall_score", .num 0)]])]),
   ("agent_d", .obj [
      ("detailed_evaluations", .arr [
        .obj [("agent_id", .str "agent_a"), ("overall_score", .num 0)],
        .obj [("agent_id", .str "agent_b"), ("overall_score", .num 0)]])])]

theorem zeroEvals_zero : ∀ a, ∀ s ∈ specCollected zeroEvals a, s = JVal.num 0 := by
  intro a s hs
  by_cases ha : pyKeyEq (JVal.str "agent_a") a = true
  · rw [pyKeyEq_str_iff.mp ha] at hs
    have h0 : specCollected zeroEvals (.str "agent_a")
        = [JVal.num 0, JVal.num 0] := rfl
    rw [h0] at hs
    rcases (by simpa using hs : s = JVal.num 0 ∨ s = JVal.num 0) with h | h <;>
      exact h
  · by_cases hb : pyKeyEq (JVal.str "agent_b") a = true
    · rw [pyKeyEq_str_iff.mp hb] at hs
      have h0 : specCollected zeroEvals (.str "agent_b")
          = [JVal.num 0, JVal.num 0] := rfl
      rw [h0] at hs
      rcases (by simpa using hs : s = JVal.num 0 ∨ s = JVal.num 0) with h | h <;>
        exact h
    · rw [Bool.not_eq_true] at ha hb
      rw [show specCollected zeroEvals a = [] by
        simp [specCollected, zeroEvals, evalContrib, itemScore, JVal.getObj?,
          alookup, pyGet, ha, hb]] at hs
      simp at hs

/-- Solution results whose self-reported confidences are 0.4 and 0.9. -/
def demoSols : List (String × JVal) :=
  [("agent_a", .obj [("confidence", .num (2/5))]),
   ("agent_b", .obj [("confidence", .num (9/10))])]

/-- Solution results where agent_b's solution phase failed to parse and
posted the fallback record, while agent_a reports confidence 0.3. -/
def c10Sols : List (String × JVal) :=
  [("agent_a", .obj [("confidence", .num (3/10))]),
   ("agent_b", .obj (solution_phase_fallback "agent_b" "Expecting value" "x"))]

/-- Witness for C1 at a concrete evaluation round: means 0.85 and 0.65 are
produced and agent_a is crowned. -/
theorem C1_build_consensus_mean_witness :
    ∃ out, build_consensus demoEvals none = some out
      ∧ plookup (JVal.str "agent_a") out.consensus_scores = some (17/20)
      ∧ plookup (JVal.str "agent_b") out.consensus_scores = some (13/20)
      ∧ out.best_agent = .str "agent_a" := by
  obtain ⟨out, h0, h1, h2, h3, h4, h5⟩ :=
    C1_build_consensus_mean demoEvals none rfl rfl
  have hsa : specCollected demoEvals (.str "agent_a")
      = [.num (9/10), .num (8/10)] := rfl
  have hsb : specCollected demoEvals (.str "agent_b")
      = [.num (7/10), .num (6/10)] := rfl
  have hla : plookup (JVal.str "agent_a") out.consensus_scores
      = some (17/20) := by
    have h := h1 (.str "agent_a") [9/10, 8/10] (by rw [hsa]; rfl)
      (by rw [hsa]; simp)
    rw [h, hsa]
    simp only [Option.some.injEq, List.sum_cons, List.sum_nil,
      List.length_cons, List.length_nil]
    norm_num
  have hlb : plookup (JVal.str "agent_b") out.consensus_scores
      = some (13/20) := by
    have h := h1 (.str "agent_b") [7/10, 6/10] (by rw [hsb]; rfl)
      (by rw [hsb]; simp)
    rw [h, hsb]
    simp only [Option.some.injEq, List.sum_cons, List.sum_nil,
      List.length_cons, List.length_nil]
    norm_num
  obtain ⟨ka, hka_mem, hka_eq⟩ := plookup_mem hla
  have hka : ka = .str "agent_a" :=
    pyKeyEq_str_iff.mp (pyKeyEq_symm hka_eq)
  rw [hka] at hka_mem
  have hma : (JVal.str "agent_a", (17/20 : ℚ)) ∈ out.consensus_scores := hka_mem
  have hne : out.consensus_scores.isEmpty = false := by
    cases hcs : out.consensus_scores with
    | nil => rw [hcs] at hma; simp at hma
    | cons p rest => rfl
  have hall : out.consensus_scores.all (fun p => decide (p.2 = 0)) = false := by
    apply List.all_eq_false.mpr
    refine ⟨_, hma, ?_⟩
    simp only [decide_eq_true_eq]
    norm_num
  obtain ⟨p, hp, hbest, hmax⟩ := h5 (by rw [hne, hall]; rfl)
  obtain ⟨qs, hqs, hnonempty, hp2⟩ := h4 p hp
  by_cases hpa : p.1 = .str "agent_a"
  · exact ⟨out, h0, hla, hlb, by rw [hbest, hpa]⟩
  · by_cases hpb : p.1 = .str "agent_b"
    · exfalso
      rw [hpb, hsb] at hqs hp2
      have hr : mapNums [JVal.num (7/10), JVal.num (6/10)]
          = some [(7 : ℚ)/10, 6/10] := rfl
      rw [hr] at hqs
      have hqs2 : qs = [(7 : ℚ)/10, 6/10] := (Option.some.inj hqs).symm
      rw [hqs2] at hp2
      have hp213 : p.2 = 13/20 := by
        rw [hp2]
        simp only [List.sum_cons, List.sum_nil, List.length_cons,
          List.length_nil]
        norm_num
      have h1720 : (17/20 : ℚ) ≤ p.2 := hmax _ hma
      rw [hp213] at h1720
      norm_num at h1720
    · refine absurd (demoEvals_other p.1 ?_ ?_) hnonempty
      · have h : ¬(pyKeyEq (JVal.str "agent_a") p.1 = true) :=
          fun h => hpa (pyKeyEq_str_iff.mp h)
        rwa [Bool.not_eq_true] at h
      · have h : ¬(pyKeyEq (JVal.str "agent_b") p.1 = true) :=
          fun h => hpb (pyKeyEq_str_iff.mp h)
        rwa [Bool.not_eq_true] at h

/-- Witness for C2 at a concrete degenerate round: all collected scores are
zero, and the higher self-reported confidence (agent_b, 0.9) wins. -/
theorem C2_build_consensus_zero_fallback_witness :
    ∃ out, build_consensus zeroEvals (some demoSols) = some out
      ∧ out.best_agent = .str "agent_b" := by
  obtain ⟨out, h0, _, hb⟩ := C2_build_consensus_zero_fallback zeroEvals
    (some demoSols) rfl rfl zeroEvals_zero
  have hsc : sourceConfs ((some demoSols).getD [])
      = [("agent_a", JVal.num (2/5)), ("agent_b", JVal.num (9/10))] := rfl
  obtain ⟨w, hwmem, hbest, hwmax⟩ := hb (by rw [hsc]; simp)
  rw [hsc] at hwmem
  rcases (by simpa using hwmem :
      w = ("agent_a", JVal.num (2/5)) ∨ w = ("agent_b", JVal.num (9/10))) with
    hw | hw
  · exfalso
    have hcon := hwmax ("agent_b", JVal.num (9/10)) (by rw [hsc]; simp)
      (9/10) (2/5) rfl (by rw [hw]; rfl)
    norm_num at hcon
  · exact ⟨out, h0, by rw [hbest, hw]⟩

/-- Witness for C10 at a concrete round: agent_b's failed solution phase
(fallback record, default confidence 0.5, error marker) beats agent_a's
honest confidence 0.3 in the degenerate consensus. -/
theorem C10_fallback_crowns_failed_solution_witness :
    alookup "error" (solution_phase_fallback "agent_b" "Expecting value" "x")
        = some (.str (String.append "JSON parse error: " "Expecting value"))
    ∧ alookup "confidence"
        (solution_phase_fallback "agent_b" "Expecting value" "x")
        = some (.num (1/2))
    ∧ ∃ out, build_consensus zeroEvals (some c10Sols) = some out
        ∧ out.best_agent = .str "agent_b" := by
  have hcF : alookup "confidence"
      (solution_phase_fallback "agent_b" "Expecting value" "x")
      = some (.num (1/2)) := by
    unfold solution_phase_fallback
    have h := vsf_default "agent_b" (fallback_base "Expecting value" "x")
      ("confidence", .num (1/2)) (conf_default_mem "agent_b")
      (by simp [fallback_base, alookup])
    simpa using h
  have he2 : srcEntry ("agent_b",
      JVal.obj (solution_phase_fallback "agent_b" "Expecting value" "x"))
      = some ("agent_b", JVal.num (1/2)) := by
    unfold srcEntry
    simp only [JVal.getObj?, Option.some_bind]
    rw [hcF]
    rfl
  have hsc : sourceConfs c10Sols
      = [("agent_a", JVal.num (3/10)), ("agent_b", JVal.num (1/2))] := by
    show List.foldl srcStep [] c10Sols = _
    rw [show c10Sols
      = [("agent_a", JVal.obj [("confidence", JVal.num (3/10))]),
         ("agent_b",
          JVal.obj (solution_phase_fallback "agent_b" "Expecting value" "x"))]
      from rfl]
    rw [List.foldl_cons, List.foldl_cons, List.foldl_nil]
    rw [srcStep_add _ he2]
    rfl
  have hsr : srWF (some c10Sols) = true := by
    unfold srWF
    rw [show (some c10Sols).getD [] = c10Sols from rfl, hsc]
    rfl
  have hothers : ∀ r ∈ sourceConfs c10Sols, r.1 ≠ "agent_b" →
      ∀ qr, asNum? r.2 = some qr → qr < 1/2 := by
    intro r hr hrne qr hqr
    rw [hsc] at hr
    rcases (by simpa using hr :
        r = ("agent_a", JVal.num (3/10)) ∨ r = ("agent_b", JVal.num (1/2))) with
      hr1 | hr1
    · rw [hr1] at hqr
      have hq : qr = 3/10 := (Option.some.inj hqr).symm
      rw [hq]
      norm_num
    · exact absurd (by rw [hr1]) hrne
  exact C10_fallback_crowns_failed_solution zeroEvals c10Sols "agent_b"
    "agent_b" "Expecting value" "x" rfl zeroEvals_zero hsr (by decide) rfl
    hothers

/-! ## Evaluation-phase parse-failure fallback
(enhanced_agent.py, `enhanced_evaluate_solutions` lines 485-513) -/

/-- The default evaluation entry appended for one error-free solution when
the evaluator's response fails JSON parsing: fixed scores (overall 0.66)
and `verified_working = False`. -/
def defaultEvalItem (agentId : String) : JVal :=
  .obj [("agent_id", .str agentId),
        ("technical_quality", .num (7/10)),
        ("completeness", .num (7/10)),
        ("innovation", .num (3/5)),
        ("practicality", .num (7/10)),
        ("verification_score", .num (3/5)),
        ("overall_score", .num (33/50)),
        ("strengths", .arr [.str "Attempted solution"]),
        ("weaknesses", .arr [.str "Could not fully evaluate"]),
        ("comments", .str "Default evaluation due to JSON parsing error"),
        ("verified_working", .bool false)]

/-- The loop body at lines 488-502: a default entry is produced only when
`all_solutions[agent_id]` is a dict with no `"error"` key. -/
def defaultEvalFor (p : String × JVal) : Option JVal :=
  match p.2.getObj? with
  | some fs =>
      if (alookup "error" fs).isSome then none
      else some (defaultEvalItem p.1)
  | none => none

/-- The record returned by the `except json.JSONDecodeError` branch of
`enhanced_evaluate_solutions` (lines 504-513). -/
def evaluate_solutions_on_parse_error (selfId : String)
    (all_solutions : List (String × JVal)) (errMsg : String) : Rec :=
  [("verification_tests", .arr []),
   ("detailed_evaluations", .arr (all_solutions.filterMap defaultEvalFor)),
   ("ranking", .arr (all_solutions.map (fun p => JVal.str p.1))),
   ("synthesis_recommendations",
     .str "Combine best practices from all solutions"),
   ("confidence", .num (1/2)),
   ("agent_id", .str selfId),
   ("phase", .str "evaluation"),
   ("error", .str (String.append "JSON parse error: " errMsg))]

/-- Concrete solutions for the C9 counterexample: agent_b is in the roster
but its solution result carries an error. -/
def c9Sols : List (String × JVal) :=
  [("agent_a", .obj [("confidence", .num (4/5))]),
   ("agent_b", .obj [("error", .str "Timeout waiting for task")])]

/-- Counterexample to C9 as stated: on parse failure the evaluator's
fallback produces `detailed_evaluations` entries only for error-free dict
solutions, not "for every agent in the roster": here agent_b is in the
roster (it has a solution result), yet the only entry is agent_a's, and no
entry's `agent_id` is agent_b. -/
theorem C9_counterexample_errored_agent_omitted :
    (alookup "agent_b" c9Sols).isSome = true
    ∧ alookup "detailed_evaluations"
        (evaluate_solutions_on_parse_error "agent_c" c9Sols "Expecting value")
      = some (.arr [defaultEvalItem "agent_a"])
    ∧ (∀ it ∈ [defaultEvalItem "agent_a"],
        pyGet (it.getObj?.getD []) "agent_id" .null ≠ .str "agent_b") := by
  refine ⟨rfl, rfl, by decide⟩

/-- Claim C9 (amended): on parse failure `enhanced_evaluate_solutions`
returns a complete record whose `detailed_evaluations` contain exactly one
default entry per error-free dict solution (errored solutions are omitted),
each carrying `verified_working = false` and the default overall score
0.66, with the roster as `ranking` and the parse-error marker. -/
theorem C9_evaluate_solutions_parse_error_envelope (selfId errMsg : String)
    (sols : List (String × JVal)) :
    ∃ items : List JVal,
      alookup "detailed_evaluations"
          (evaluate_solutions_on_parse_error selfId sols errMsg)
        = some (.arr items)
      ∧ (∀ p ∈ sols, ∀ fs, p.2.getObj? = some fs → alookup "error" fs = none →
          defaultEvalItem p.1 ∈ items)
      ∧ (∀ it ∈ items, ∃ p ∈ sols, ∃ fs, p.2.getObj? = some fs
          ∧ alookup "error" fs = none ∧ it = defaultEvalItem p.1)
      ∧ (∀ it ∈ items,
          pyGet (it.getObj?.getD []) "verified_working" .null = .bool false
          ∧ pyGet (it.getObj?.getD []) "overall_score" (.num 0) = .num (33/50))
      ∧ alookup "ranking"
          (evaluate_solutions_on_parse_error selfId sols errMsg)
        = some (.arr (sols.map (fun p => JVal.str p.1)))
      ∧ alookup "error"
          (evaluate_solutions_on_parse_error selfId sols errMsg)
        = some (.str (String.append "JSON parse error: " errMsg)) := by
  refine ⟨sols.filterMap defaultEvalFor, rfl, ?_, ?_, ?_, rfl, rfl⟩
  · intro p hp fs hfs herr
    apply List.mem_filterMap.mpr
    refine ⟨p, hp, ?_⟩
    rw [defaultEvalFor, hfs]
    simp [herr]
  · intro it hit
    obtain ⟨p, hp, hdef⟩ := List.mem_filterMap.mp hit
    refine ⟨p, hp, ?_⟩
    cases hfs : p.2.getObj? with
    | none => simp only [defaultEvalFor, hfs] at hdef; cases hdef
    | some fs =>
        simp only [defaultEvalFor, hfs] at hdef
        by_cases herr : (alookup "error" fs).isSome
        · rw [if_pos herr] at hdef; cases hdef
        · rw [if_neg herr] at hdef
          exact ⟨fs, rfl, Option.not_isSome_iff_eq_none.mp herr,
            (Option.some.inj hdef).symm⟩
  · intro it hit
    obtain ⟨p, hp, hdef⟩ := List.mem_filterMap.mp hit
    cases hfs : p.2.getObj? with
    | none => simp only [defaultEvalFor, hfs] at hdef; cases hdef
    | some fs =>
        simp only [defaultEvalFor, hfs] at hdef
        by_cases herr : (alookup "error" fs).isSome
        · rw [if_pos herr] at hdef; cases hdef
        · rw [if_neg herr] at hdef
          rw [← Option.some.inj hdef]
          exact ⟨rfl, rfl⟩

/-! ## JSON candidate extraction
(enhanced_agent.py, `extract_json_from_response` lines 17-76)

The function works on raw LLM text, embedded as `List Char`. Brace
characters are named `obr`/`cbr` and concrete inputs are assembled from
brace-free string literals around them. -/

def obr : Char := Char.ofNat 123

def cbr : Char := Char.ofNat 125

/-- Python `\s` on ASCII text (`str.strip` removes the same set). -/
def pyWs (c : Char) : Bool :=
  c = ' ' || c = '\t' || c = '\n' || c = '\r'
    || c = Char.ofNat 11 || c = Char.ofNat 12

def thinkOpen : List Char := "<think>".toList

def thinkClose : List Char := "</think>".toList

/-- `str.strip()`. -/
def trimText (t : List Char) : List Char :=
  ((t.dropWhile pyWs).reverse.dropWhile pyWs).reverse

def fenceJson : List Char := "```json".toList

def fence : List Char := "```".toList

/-- Lines 61-68: strip surrounding whitespace and markdown code-fence
markers from the extracted candidate. -/
def stripFences (t0 : List Char) : List Char :=
  let t1 := trimText t0
  let t2 := if fenceJson.isPrefixOf t1 then t1.drop 7 else t1
  let t3 := if fence.isPrefixOf t2 then t2.drop 3 else t2
  let t4 := if fence.isSuffixOf t3 then t3.take (t3.length - 3) else t3
  trimText t4

/-- `s.find(c)`: index of the first occurrence. -/
def firstIdx? (c : Char) : List Char → Option Nat
  | [] => none
  | d :: rest => if d = c then some 0 else (firstIdx? c rest).map (· + 1)

/-- Index of the last occurrence of `c` (how the regex engine's greedy
`[\s\S]*` before a literal `c` ends the match group). -/
def lastIdx? (c : Char) : List Char → Option Nat
  | [] => none
  | d :: rest =>
      match lastIdx? c rest with
      | some k => some (k + 1)
      | none => if d = c then some 0 else none

/-- The balanced-brace walk of lines 46-56 over `response[start_idx:]`:
`i` is the absolute index of the character under scrutiny and `n` the
running `brace_count`; the walk reports the absolute index at which the
count returns to zero, or `none` when it never does. The walk is only
ever started at a `{` (Python's `response.find('{')`), so the count never
needs to go negative before the break fires. -/
def scanBalAux : List Char → Nat → Nat → Option Nat
  | [], _, _ => none
  | c :: rest, i, n =>
      if c = obr then scanBalAux rest (i + 1) (n + 1)
      else if c = cbr then
        if n = 1 then some i else scanBalAux rest (i + 1) (n - 1)
      else scanBalAux rest (i + 1) n

def scanBal (t : List Char) (start : Nat) : Option Nat :=
  scanBalAux (t.drop start) start 0

/-- `re.search(r'</think>\s*({[\s\S]*})', response)` (`withWs = true`) and
`re.search(r'</think>({[\s\S]*})', response)` (`withWs = false`),
returning `group(1)`. The leftmost viable match wins: the first
`</think>` occurrence followed (after an optional whitespace run) by a
`{` that has some `}` strictly after it; the greedy `[\s\S]*` extends the
group to the last such `}`. -/
def matchThinkAux (withWs : Bool) : List Char → Option (List Char)
  | [] => none
  | c :: rest =>
      if thinkClose.isPrefixOf (c :: rest) then
        match (if withWs
            then ((c :: rest).drop 8).dropWhile pyWs
            else (c :: rest).drop 8) with
        | d :: tail =>
            if d = obr then
              match lastIdx? cbr tail with
              | some k => some (d :: tail.take (k + 1))
              | none => matchThinkAux withWs rest
            else matchThinkAux withWs rest
        | [] => matchThinkAux withWs rest
      else matchThinkAux withWs rest

/-- `re.search(r'({[\s\S]*})', response)`: matches iff the first `{` has
some `}` strictly after it; the group runs to the last `}`. -/
def regexNoThink (t : List Char) : Option (List Char) :=
  match firstIdx? obr t, lastIdx? cbr t with
  | some p, some k => if p < k then some ((t.drop p).take (k + 1 - p)) else none
  | _, _ => none

/-- Lines 27-58: the candidate string before fence stripping. In the
`<think>` branch the greedy regex group is used as is; only in the
no-think branch is the regex group overridden by the balanced-brace walk
when that walk closes. -/
def rawCandidate (t : List Char) : List Char :=
  if containsSub thinkOpen t then
    match matchThinkAux true t with
    | some g => g
    | none =>
        match matchThinkAux false t with
        | some g => g
        | none => t
  else
    match regexNoThink t with
    | some g =>
        match firstIdx? obr t with
        | some p =>
            match scanBal t p with
            | some i => (t.drop p).take (i + 1 - p)
            | none => g
        | none => g
    | none => t

def extract_json_from_response (t : List Char) : List Char :=
  stripFences (rawCandidate t)

/-- Written from the spec: scan to the first `{` and walk a brace-depth
counter; the slice to the index where the depth returns to zero is the
candidate record. -/
def balancedSlice (t : List Char) : Option (List Char) :=
  match firstIdx? obr t with
  | some p =>
      match scanBal t p with
      | some i => some ((t.drop p).take (i + 1 - p))
      | none => none
  | none => none

/-! ### Support lemmas for the balanced scan -/

theorem scanBalAux_ge {s : List Char} :
    ∀ {i n j : Nat}, scanBalAux s i n = some j → i ≤ j := by
  induction s with
  | nil => intro i n j h; cases h
  | cons c rest ih =>
      intro i n j h
      rw [scanBalAux] at h
      by_cases hc : c = obr
      · rw [if_pos hc] at h
        exact le_trans (Nat.le_succ i) (ih h)
      · rw [if_neg hc] at h
        by_cases hc2 : c = cbr
        · rw [if_pos hc2] at h
          by_cases hn : n = 1
          · rw [if_pos hn] at h
            exact le_of_eq (Option.some.inj h)
          · rw [if_neg hn] at h
            exact le_trans (Nat.le_succ i) (ih h)
        · rw [if_neg hc2] at h
          exact le_trans (Nat.le_succ i) (ih h)

theorem scanBalAux_get {s : List Char} :
    ∀ {i n j : Nat}, scanBalAux s i n = some j → s.get? (j - i) = some cbr := by
  induction s with
  | nil => intro i n j h; cases h
  | cons c rest ih =>
      intro i n j h
      rw [scanBalAux] at h
      by_cases hc : c = obr
      · rw [if_pos hc] at h
        have hge := scanBalAux_ge h
        have hrec := ih h
        have hidx : j - i = (j - (i + 1)) + 1 := by omega
        rw [hidx]
        simpa using hrec
      · rw [if_neg hc] at h
        by_cases hc2 : c = cbr
        · rw [if_pos hc2] at h
          by_cases hn : n = 1
          · rw [if_pos hn] at h
            have hj : j = i := (Option.some.inj h).symm
            subst hj
            simp [hc2]
          · rw [if_neg hn] at h
            have hge := scanBalAux_ge h
            have hrec := ih h
            have hidx : j - i = (j - (i + 1)) + 1 := by omega
            rw [hidx]
            simpa using hrec
        · rw [if_neg hc2] at h
          have hge := scanBalAux_ge h
          have hrec := ih h
          have hidx : j - i = (j - (i + 1)) + 1 := by omega
          rw [hidx]
          simpa using hrec

theorem scanBalAux_zero_lt {s : List Char} :
    ∀ {i j : Nat}, scanBalAux s i 0 = some j → i < j := by
  induction s with
  | nil => intro i j h; cases h
  | cons c rest ih =>
      intro i j h
      rw [scanBalAux] at h
      by_cases hc : c = obr
      · rw [if_pos hc] at h
        exact lt_of_lt_of_le (Nat.lt_succ_self i) (scanBalAux_ge h)
      · rw [if_neg hc] at h
        by_cases hc2 : c = cbr
        · rw [if_pos hc2] at h
          rw [if_neg (by decide : (0 : Nat) ≠ 1)] at h
          exact lt_trans (Nat.lt_succ_self i) (ih h)
        · rw [if_neg hc2] at h
          exact lt_trans (Nat.lt_succ_self i) (ih h)

theorem scanBal_get {t : List Char} {p j : Nat} (h : scanBal t p = some j) :
    t.get? j = some cbr := by
  have hge : p ≤ j := scanBalAux_ge h
  have hg := scanBalAux_get h
  rw [List.get?_drop] at hg
  rwa [Nat.add_sub_cancel' hge] at hg

theorem lastIdx?_ge {t : List Char} {j : Nat} {c : Char}
    (h : t.get? j = some c) : ∃ k, lastIdx? c t = some k ∧ j ≤ k := by
  induction t generalizing j with
  | nil => cases h
  | cons d rest ih =>
      cases j with
      | zero =>
          have hd : d = c := by simpa using h
          subst hd
          cases hl : lastIdx? d rest with
          | some k => exact ⟨k + 1, by rw [lastIdx?, hl], Nat.zero_le _⟩
          | none => exact ⟨0, by rw [lastIdx?, hl]; simp, le_refl 0⟩
      | succ j' =>
          have hrest : rest.get? j' = some c := by simpa using h
          obtain ⟨k, hk, hjk⟩ := ih hrest
          exact ⟨k + 1, by rw [lastIdx?, hk], Nat.succ_le_succ hjk⟩

/-! ### C3: the balanced scan governs only think-free responses. -/

/-- Input for the C3 counterexample: a reasoning tag pair followed by a
record and trailing commentary that itself contains braces. -/
def c3Input : List Char :=
  "<think>x</think>".toList ++ [obr] ++ "a".toList ++ [cbr]
    ++ " t ".toList ++ [obr] ++ "b".toList ++ [cbr]

/-- Counterexample to C3 as stated: on a response containing the reasoning
tag pair, the code takes the greedy regex group to the last closing brace
and never runs the balanced scan, so the trailing commentary (with its
braces) is kept; the balanced scan of the same text would have discarded
it. -/
theorem C3_counterexample_think_branch_greedy :
    extract_json_from_response c3Input
      = [obr] ++ "a".toList ++ [cbr] ++ " t ".toList
          ++ [obr] ++ "b".toList ++ [cbr]
    ∧ balancedSlice c3Input = some ([obr] ++ "a".toList ++ [cbr])
    ∧ extract_json_from_response c3Input ≠ [obr] ++ "a".toList ++ [cbr] := by
  refine ⟨?_, ?_, ?_⟩ <;> decide

/-- Claim C3 (amended): on a response with no `<think>` tag, whenever the
balanced-brace walk from the first opening brace closes, its slice — not
the greedy last-closing-brace group — is the candidate handed to fence
stripping. -/
theorem C3_extract_balanced_scan {t : List Char}
    (hnothink : containsSub thinkOpen t = false)
    {p j : Nat} (hp : firstIdx? obr t = some p) (hj : scanBal t p = some j) :
    extract_json_from_response t
      = stripFences ((t.drop p).take (j + 1 - p)) := by
  have hcbr : t.get? j = some cbr := scanBal_get hj
  obtain ⟨k, hk, hjk⟩ := lastIdx?_ge hcbr
  have hpj : p < j := scanBalAux_zero_lt hj
  have hreg : regexNoThink t = some ((t.drop p).take (k + 1 - p)) := by
    unfold regexNoThink
    simp only [hp, hk]
    rw [if_pos (lt_of_lt_of_le hpj hjk)]
  unfold extract_json_from_response rawCandidate
  simp only [hnothink, Bool.false_eq_true, if_false, hreg, hp, hj]

/-- Input for the C3 witness: think-free text with a record, trailing
commentary and a stray unbalanced opening brace. -/
def c3NoThink : List Char :=
  "s ".toList ++ [obr] ++ "a".toList ++ [cbr] ++ " y ".toList
    ++ [obr] ++ "b".toList

/-- Witness for the amended C3 at a concrete think-free input: the
balanced walk closes at index 4 and the candidate is the balanced
slice. -/
theorem C3_extract_balanced_scan_witness :
    containsSub thinkOpen c3NoThink = false
    ∧ firstIdx? obr c3NoThink = some 2
    ∧ scanBal c3NoThink 2 = some 4
    ∧ extract_json_from_response c3NoThink = [obr] ++ "a".toList ++ [cbr] := by
  refine ⟨by decide, by decide, by decide, ?_⟩
  rw [@C3_extract_balanced_scan c3NoThink (by decide) 2 4 (by decide) (by decide)]
  decide

end LLMTalks
